import Mathlib

/-!
Verification of the `asset` program's graph engine (`asset/assetfile.py`,
`asset/commands.py`) against its natural-language specification.

The in-memory forest is a `networkx.DiGraph`; we shallow-embed it as an
explicit record of node/edge association lists.  Every definition below is
translated from the Python source; filesystem observations (file sizes,
digests, resolved path suffixes, timestamps, the random fresh key produced
by `make_key`) enter as explicit parameters since they are inputs the
program reads from its environment.
-/

namespace Asset

/-- Per-node metadata, the fields of the persisted schema for one asset node
(the dynamic metadata dictionary of the Python source as a fixed record;
`parent` is not here: on load it is popped from the dictionary and turned
into an edge). -/
structure NodeMeta where
  create_time : String := ""
  update_time : String := ""
  «alias» : List String := []
  tag : Option (List String) := none
  description : Option String := none
  item : Option String := none
  size : Option Nat := none
  md5 : Option String := none
  cli : Option String := none
deriving DecidableEq, Repr, Inhabited

/-- The asset network (`nx.DiGraph` with graph attributes `path` and `store`):
node ids with their metadata, plus directed `(parent, child)` edges. -/
structure AssetNet where
  path : String := ""
  store : String := ""
  nodes : List (String × NodeMeta) := []
  edges : List (String × String) := []
deriving DecidableEq, Repr, Inhabited

/-- Node ids of the network, in insertion order. -/
def keys (net : AssetNet) : List String := net.nodes.map Prod.fst

/-- Metadata of node `n` (`asset_net.nodes[n]` of the source; total with a
default record for absent ids, which the source never queries). -/
def metaOf (net : AssetNet) (n : String) : NodeMeta :=
  ((net.nodes.find? (fun p => p.1 == n)).map Prod.snd).getD default

/-- `list(asset_net.successors(n))`: targets of edges leaving `n`. -/
def successors (net : AssetNet) (n : String) : List String :=
  net.edges.filterMap (fun e => if e.1 == n then some e.2 else none)

/-- `list(asset_net.predecessors(n))`: sources of edges entering `n`. -/
def predecessors (net : AssetNet) (n : String) : List String :=
  net.edges.filterMap (fun e => if e.2 == n then some e.1 else none)

/-- `(n for n, d in asset_net.in_degree() if d == 0)`: the root nodes. -/
def roots (net : AssetNet) : List String :=
  (net.nodes.filter (fun p => predecessors net p.1 == [])).map Prod.fst

/-- `asset_net.subgraph(keep)`: the sub-network induced on the listed ids. -/
def AssetNet.subgraph (net : AssetNet) (keep : List String) : AssetNet :=
  { net with
    nodes := net.nodes.filter (fun p => keep.contains p.1)
    edges := net.edges.filter (fun e => keep.contains e.1 && keep.contains e.2) }

/-- One round of forward closure: the current set together with every direct
successor of one of its members. -/
def reach_step (net : AssetNet) (s : List String) : List String :=
  (s ++ s.flatMap (successors net)).dedup

/-- Iterate `reach_step` a fixed number of times. -/
def iter_step (net : AssetNet) : Nat → List String → List String
  | 0, s => s
  | k + 1, s => iter_step net k (reach_step net s)

/-- `nx.descendants(asset_net, n)`: every node reachable from `n` by a
nonempty directed path.  Iterating the closure step once per node of the
network reaches a fixed point on any graph whose edges stay inside the node
set, so this computes the full transitive closure there. -/
def descendants (net : AssetNet) (n : String) : List String :=
  (iter_step net net.nodes.length [n]).filter (fun x => x != n)

/-- Characters of a string lowered, modelling `re.I` matching. -/
def to_lower (s : String) : List Char := s.toList.map Char.toLower

/-- `pat` is a leading run of `s`. -/
def chars_begin : List Char → List Char → Bool
  | [], _ => true
  | _ :: _, [] => false
  | p :: ps, c :: cs => p == c && chars_begin ps cs

/-- `pat` occurs contiguously somewhere in `s`; with both sides lowered this
models `re.search(f'^.*{pat}.*$', s, flags=re.I) is not None` for pattern
text free of regex metacharacters and subject text free of newlines. -/
def chars_in (pat : List Char) : List Char → Bool
  | [] => chars_begin pat []
  | c :: cs => chars_begin pat (c :: cs) || chars_in pat cs

/-- `'_'.join(l)` as a character list. -/
def join_aliases : List String → List Char
  | [] => []
  | [s] => s.toList
  | s :: rest => s.toList ++ '_' :: join_aliases rest

/-- Case-insensitive substring test of a search term against joined text. -/
def fuzzy_term_match (term : String) (s : List Char) : Bool :=
  chars_in (to_lower term) (s.map Char.toLower)

/-- Exact acceptance of one path segment `alias[:tag]*` by a node's
metadata: `alias in meta['alias'] and all(t in meta.get('tag', []) for t in tag)`. -/
def exact_seg (a : String) (tag : List String) (meta : NodeMeta) : Bool :=
  meta.«alias».contains a && tag.all (fun t => (meta.tag.getD []).contains t)

/-- Fuzzy acceptance of one path segment: case-insensitive substring match
of the alias term against `'_'.join(meta['alias'])` and of every tag term
against `'_'.join(meta.get('tag', []))`. -/
def fuzzy_seg (a : String) (tag : List String) (meta : NodeMeta) : Bool :=
  fuzzy_term_match a (join_aliases meta.«alias») &&
    tag.all (fun t => fuzzy_term_match t (join_aliases (meta.tag.getD [])))

/-- Ids of the nodes of `net` accepted by one segment, in node order. -/
def seg_filter (net : AssetNet) (fuzzy : Bool) (a : String) (tag : List String) :
    List String :=
  (net.nodes.filter (fun p =>
    if fuzzy then fuzzy_seg a tag p.2 else exact_seg a tag p.2)).map Prod.fst

/-- `str.split(sep)` of Python on character lists (always nonempty output;
an empty input yields one empty piece). -/
def split_chars (sep : Char) : List Char → List (List Char)
  | [] => [[]]
  | c :: rest =>
    if c == sep then [] :: split_chars sep rest
    else
      match split_chars sep rest with
      | [] => [[c]]
      | h :: t => (c :: h) :: t

/-- `str.split(sep)` returning strings. -/
def split_on (sep : Char) (s : String) : List String :=
  (split_chars sep s.toList).map (fun l => String.mk l)

/-- The `while alias_tag_list:` loop of `resolve_node`: filter the current
sub-network by the head segment; while segments remain, restrict to the
sub-network induced on the descendants of the current matches. -/
def resolve_go (net : AssetNet) (fuzzy : Bool) : List (List String) → List String
  | [] => []
  | seg :: rest =>
    let at_pair : String × List String :=
      match seg with
      | [] => ("", [])
      | a :: t => (a, t)
    let nodes := seg_filter net fuzzy at_pair.1 at_pair.2
    match rest with
    | [] => nodes
    | _ :: _ =>
      resolve_go (net.subgraph (nodes.flatMap (fun n => descendants net n)))
        fuzzy rest

/-- `resolve_node(asset_net, search, fuzzy)`: split the search string on `/`
into segments and each segment on `:` into alias and tag terms, then narrow
level by level.  (`str.split` never returns an empty list, so the `[]`
branch of `resolve_go` is unreachable from here.) -/
def resolve_node (net : AssetNet) (search : String) (fuzzy : Bool) : List String :=
  resolve_go net fuzzy ((split_on '/' search).map (fun p => split_on ':' p))

/-- The `while` loop of `all_predecessors`, walking parent links rootwards;
the source loops forever on a cycle, one step per node suffices on a
forest. -/
def all_predecessors_go (net : AssetNet) : Nat → String → List String → List String
  | 0, _, acc => acc
  | fuel + 1, node, acc =>
    match predecessors net node with
    | [] => acc
    | p :: _ => all_predecessors_go net fuel p (p :: acc)

/-- `all_predecessors(asset_net, node)`: the chain of ancestors of `node`,
root first. -/
def all_predecessors (net : AssetNet) (node : String) : List String :=
  all_predecessors_go net net.nodes.length node []

/-- `search_nodes(asset_net, search, ancestors, descendants, fuzzy)`: exact
resolution with optional fuzzy retry when empty, expanded by ancestor
chains and/or descendant closures, returned as the induced sub-network. -/
def search_nodes (net : AssetNet) (search : String)
    (ancestors descendants_flag fuzzy : Bool) : AssetNet :=
  let found := resolve_node net search false
  let found := if found.isEmpty && fuzzy then resolve_node net search true else found
  let anc := if ancestors then found.flatMap (all_predecessors net) else []
  let desc := if descendants_flag then found.flatMap (fun n => descendants net n) else []
  net.subgraph (found ++ anc ++ desc)

/-! ## Persistence codec

One persisted collection file, after the signature line: a `store` path and
a mapping of node id to metadata, each node optionally carrying a `parent`
reference. -/

/-- One node as persisted: its metadata and the optional `parent` key. -/
structure YamlAsset where
  meta : NodeMeta := {}
  parent : Option String := none
deriving DecidableEq, Repr, Inhabited

/-- The structured content of an asset description file. -/
structure YamlFile where
  store : String := ""
  assets : List (String × YamlAsset) := []
deriving DecidableEq, Repr, Inhabited

/-- `yaml_to_nx(path)`: each node's `parent` key is popped and recorded as
an edge `(parent, name)`; remaining metadata become node attributes.
(`add_edges_from` would create bare nodes for parent ids absent from the
mapping; a well-formed file references only existing ids, where no node is
created.) -/
def yaml_to_nx (path : String) (f : YamlFile) : AssetNet :=
  { path := path
    store := f.store
    nodes := f.assets.map (fun p => (p.1, p.2.meta))
    edges := f.assets.filterMap (fun p => p.2.parent.map (fun q => (q, p.1))) }

/-- `nx_to_yaml`: each node's first in-memory predecessor, when present, is
projected back into the `parent` field before serialization. -/
def nx_to_yaml (net : AssetNet) : YamlFile :=
  { store := net.store
    assets := net.nodes.map (fun p =>
      (p.1, { meta := p.2, parent := (predecessors net p.1).head? })) }

/-- Well-formedness of a persisted file: distinct node ids and parent
references into the mapping itself. -/
def YamlFile.wf (f : YamlFile) : Prop :=
  (f.assets.map Prod.fst).Nodup ∧
    ∀ p ∈ f.assets, ∀ q ∈ p.2.parent, q ∈ f.assets.map Prod.fst

instance (f : YamlFile) : Decidable f.wf := by
  unfold YamlFile.wf; infer_instance

/-! ## Forest mutators

Each operation is a single transition on the in-memory network, returning
an error exactly where the source prints a message and terminates without
persisting anything.  `datetime.now().strftime('%Y-%m-%d %H:%M:%S')` is
passed in as `now`; the random collision-checked id of `make_key` is passed
in as `name`; sizes, digests and resolved path suffixes of stored items are
filesystem observations passed inside the argument records. -/

/-- The per-operation error taxonomy.  The first four are `print` +
`sys.exit(1)` sites in the source; `typeError` is not a handled exit but
the uncaught Python `TypeError` raised by `add_to_nx`'s duplicate check
when it iterates a `None` tag list (the process dies with a traceback, so
like the others it aborts the operation with nothing persisted). -/
inductive AssetError where
  /-- `Could not resolve asset path uniquely` -/
  | ambiguous
  /-- `Could not resolve asset path` (explicit parent resolution only) -/
  | notFound
  /-- `An item with the same alias and tag combination already exists here` -/
  | duplicate
  /-- `Cannot remove an asset with children unless --recursive is specified` -/
  | hasChildren
  /-- uncaught `TypeError: 'NoneType' object is not iterable` -/
  | typeError
deriving DecidableEq, Repr

/-- Arguments of `asset add` relevant to the network, plus the filesystem
observations its item-transfer branch records.  Empty list / `none` model
Python falsy defaults. -/
structure AddArgs where
  «alias» : List String := []
  /-- `--tag` of `add` defaults to `None` and is otherwise a non-empty list
  (`nargs='+'`); `none` models `None` — the duplicate check iterates this
  value, so the distinction is observable there. -/
  tag : Option (List String) := none
  description : Option String := none
  item : Option String := none
  parent : Option String := none
  inherit : Bool := false
  digest : Bool := false
  /-- `du(path)` of the item being stored. -/
  item_size : Nat := 0
  /-- `md5_digest(...)` of the stored item. -/
  item_md5 : String := ""
  /-- `path.is_dir()` for the item. -/
  item_is_dir : Bool := false
  /-- `"".join(path.suffixes)` of the resolved item path. -/
  item_suffixes : String := ""
deriving Repr, Inhabited

/-- Arguments of `asset mod`. -/
structure ModArgs where
  search : String := ""
  «alias» : List String := []
  tag : List String := []
  description : Option String := none
  item : Option String := none
  parent : Option String := none
  inherit : Bool := false
  digest : Bool := false
  item_size : Nat := 0
  item_md5 : String := ""
  item_is_dir : Bool := false
  item_suffixes : String := ""
deriving Repr, Inhabited

/-- Arguments of `asset del`. -/
structure DelArgs where
  search : String := ""
  recursive : Bool := false
deriving Repr, Inhabited

/-- `f'{Path(store, base)}{suffixes}'`: destination recorded for a stored
item. -/
def dest_item (store base suffixes : String) : String :=
  store ++ "/" ++ base ++ suffixes

/-- The duplicate-alias loop of add and modify: for each candidate alias in
order, fail if some node of the sibling scope lists that alias and carries
every one of the given tags.  The tag argument is `none` when `add` is run
without `--tag` (`args.tag = None`); the source then raises an uncaught
`TypeError` the moment the alias test succeeds for some scope member,
because `all(t in ... for t in args.tag)` iterates `None` on creation of
the generator (the short-circuiting `and` reaches it only after an alias
match).  The modify path never passes `None`: it normalizes the tags
first. -/
def dup_check (net : AssetNet) (scope : List String)
    (tagOpt : Option (List String)) : List String → Except AssetError Unit
  | [] => .ok ()
  | a :: rest =>
    match tagOpt with
    | none =>
      if scope.any (fun n => (metaOf net n).«alias».contains a) then
        .error .typeError
      else dup_check net scope none rest
    | some tags =>
      if scope.any (fun n => (metaOf net n).«alias».contains a &&
          tags.all (fun t => ((metaOf net n).tag.getD []).contains t)) then
        .error .duplicate
      else dup_check net scope (some tags) rest

/-- Sibling scope of `add_to_nx`: children of the uniquely resolved parent,
or all roots when no parent search is given. -/
def add_scope (args : AddArgs) (net : AssetNet) :
    Except AssetError (List String × Option String) :=
  match args.parent with
  | some psearch =>
    let ps := resolve_node net psearch false
    if ps.length > 1 then .error .ambiguous
    else
      match ps with
      | [] => .error .notFound
      | parent :: _ => .ok (successors net parent, some parent)
  | none => .ok (roots net, none)

/-- Metadata populated for a freshly added node.  The item branch of the
source also performs the copy/move/link transfer itself; here only the
recorded fields appear.  (With `--inherit` but no parent and an item, the
source crashes on an unbound `parent` variable; that corner is modelled as
using `name`.) -/
def add_meta (args : AddArgs) (name now : String) (parentOpt : Option String)
    (net : AssetNet) : NodeMeta :=
  let meta : NodeMeta := { create_time := now, update_time := now, «alias» := args.«alias» }
  let meta := match args.description with
    | some d => { meta with description := some d }
    | none => meta
  let meta := match args.tag with
    | some (t :: ts) => { meta with tag := some (t :: ts) }
    | _ => meta
  match args.item with
  | none => meta
  | some _ =>
    let base := if args.inherit then parentOpt.getD name else name
    { meta with
      item := some (dest_item net.store base args.item_suffixes)
      size := some args.item_size
      md5 := if args.digest && !args.item_is_dir then some args.item_md5 else meta.md5 }

/-- `add_to_nx(args, asset_net)`: resolve the sibling scope, run the
duplicate check, insert the new node, and attach the single parent edge
when a parent was resolved.  (`--inherit` without a parent only prints a
warning in the source and continues.) -/
def add_to_nx (args : AddArgs) (name now : String) (net : AssetNet) :
    Except AssetError AssetNet :=
  match add_scope args net with
  | .error e => .error e
  | .ok (scope, parentOpt) =>
    match dup_check net scope args.tag args.«alias» with
    | .error e => .error e
    | .ok _ =>
      let net2 := { net with nodes := net.nodes ++ [(name, add_meta args name now parentOpt net)] }
      match parentOpt with
      | some parent => .ok { net2 with edges := net2.edges ++ [(parent, name)] }
      | none => .ok net2

/-- `asset_net.remove_node(n)`: drop the node and its incident edges. -/
def remove_node (net : AssetNet) (n : String) : AssetNet :=
  { net with
    nodes := net.nodes.filter (fun p => p.1 != n)
    edges := net.edges.filter (fun e => e.1 != n && e.2 != n) }

/-- `asset_net.remove_nodes_from(l)`. -/
def remove_nodes_from (net : AssetNet) (l : List String) : AssetNet :=
  l.foldl remove_node net

/-- `del_from_nx(args, asset_net)`: exact unique resolution (ambiguity is
fatal, no match is a silent no-op); a node with successors requires
`--recursive`, which removes its descendants first. -/
def del_from_nx (args : DelArgs) (net : AssetNet) : Except AssetError AssetNet :=
  let sub := search_nodes net args.search false false false
  if sub.nodes.length > 1 then .error .ambiguous
  else
    match sub.nodes with
    | [] => .ok net
    | (node, _) :: _ =>
      if (successors net node).length != 0 then
        if !args.recursive then .error .hasChildren
        else .ok (remove_node (remove_nodes_from net (descendants net node)) node)
      else .ok (remove_node net node)

/-- Step 2 of `mod_nx_node`: determine the new sibling scope and, when a
parent search is given, remove every existing parent edge of the node and
attach the new one.  Returns the (possibly re-wired) network, the scope
(always excluding the node itself in the two parent branches; the root
branch lists all roots, the node included), and the parent whose id the
item branch may use.  (In the root branch `--inherit` only prints a
warning.) -/
def mod_reparent (args : ModArgs) (net : AssetNet) (node : String) :
    Except AssetError (AssetNet × List String × Option String) :=
  match args.parent with
  | some psearch =>
    let ps := resolve_node net psearch false
    if ps.length > 1 then .error .ambiguous
    else
      match ps with
      | [] => .error .notFound
      | parent :: _ =>
        let scope := (successors net parent).filter (fun n => n != node)
        .ok ({ net with
                edges := (net.edges.filter (fun e => e.2 != node)) ++ [(parent, node)] },
             scope, some parent)
  | none =>
    match predecessors net node with
    | parent :: _ => .ok (net, (successors net parent).filter (fun n => n != node), some parent)
    | [] => .ok (net, roots net, none)

/-- Step 3 of `mod_nx_node`: when an alias or tag replacement is requested,
merge with the existing values where one side is omitted, re-run the
duplicate check against the scope, and install the merged values. -/
def mod_merge_check (args : ModArgs) (net : AssetNet) (node : String)
    (scope : List String) : Except AssetError NodeMeta :=
  let meta := metaOf net node
  if args.«alias».isEmpty && args.tag.isEmpty then .ok meta
  else
    let aliases := if args.«alias».isEmpty then meta.«alias» else args.«alias»
    let tags := if args.tag.isEmpty then meta.tag.getD [] else args.tag
    match dup_check net scope (some tags) aliases with
    | .error e => .error e
    | .ok _ =>
      .ok { meta with
            «alias» := aliases
            tag := if tags.isEmpty then meta.tag else some tags }

/-- Steps 4-5 of `mod_nx_node`: stamp `update_time`, replace the
description when given, and re-record the stored item fields when an item
is given (the source also deletes the previously stored item from disk and
performs the new transfer; with `--inherit` on a parentless node and an
item it crashes on a list-valued `parent`, modelled here as using the
node's own id). -/
def mod_finish (args : ModArgs) (now : String) (net : AssetNet) (node : String)
    (parentOpt : Option String) (meta : NodeMeta) : NodeMeta :=
  let meta := { meta with update_time := now }
  let meta := match args.description with
    | some d => { meta with description := some d }
    | none => meta
  match args.item with
  | none => meta
  | some _ =>
    let base := if args.inherit then parentOpt.getD node else node
    { meta with
      item := some (dest_item net.store base args.item_suffixes)
      size := some args.item_size
      md5 := if args.digest && !args.item_is_dir then some args.item_md5 else meta.md5 }

/-- Write a node's (mutated in place in the source) metadata back. -/
def set_meta (net : AssetNet) (n : String) (m : NodeMeta) : AssetNet :=
  { net with nodes := net.nodes.map (fun p => if p.1 == n then (p.1, m) else p) }

/-- `mod_nx_node(args, asset_net)`: exact unique resolution of the target
(ambiguity fatal, no match a silent no-op returning the network untouched),
then re-parenting, merge/duplicate re-check, and the remaining field
updates. -/
def mod_nx_node (args : ModArgs) (now : String) (net : AssetNet) :
    Except AssetError AssetNet :=
  let sub := search_nodes net args.search false false false
  if sub.nodes.length > 1 then .error .ambiguous
  else
    match sub.nodes with
    | [] => .ok net
    | (node, _) :: _ =>
      match mod_reparent args net node with
      | .error e => .error e
      | .ok (net2, scope, parentOpt) =>
        match mod_merge_check args net2 node scope with
        | .error e => .error e
        | .ok meta2 =>
          .ok (set_meta net2 node (mod_finish args now net2 node parentOpt meta2))

/-! ## Command layer (`commands.py`), one configured collection at a time -/

/-- `nx.utils.graphs_equal` on our representation: node and edge dictionary
comparison is order-insensitive, so membership in both directions, plus the
graph attributes. -/
def graphs_equal (a b : AssetNet) : Bool :=
  a.nodes.all (b.nodes.contains ·) && b.nodes.all (a.nodes.contains ·) &&
    a.edges.all (b.edges.contains ·) && b.edges.all (a.edges.contains ·) &&
    a.path == b.path && a.store == b.store

/-- `asset_add` on one collection file: load, mutate, and serialize; an
error inside `add_to_nx` terminates the process before any write (`none`
means the file is left untouched). -/
def asset_add_file (args : AddArgs) (name now path : String) (f : YamlFile) :
    Option YamlFile :=
  match add_to_nx args name now (yaml_to_nx path f) with
  | .error _ => none
  | .ok net2 => some (nx_to_yaml net2)

/-- One iteration of `asset_mod`'s collection loop: mutate a copy and
serialize it only when it differs from the original (`none`: nothing
written for this file, either because resolution errored out — terminating
the process — or because the copy is unchanged and the loop falls through
to the next collection). -/
def asset_mod_file (args : ModArgs) (now path : String) (f : YamlFile) :
    Option YamlFile :=
  let net := yaml_to_nx path f
  match mod_nx_node args now net with
  | .error _ => none
  | .ok net2 => if graphs_equal net net2 then none else some (nx_to_yaml net2)

/-- One iteration of `asset_del`'s collection loop, same skeleton as
`asset_mod`. -/
def asset_del_file (args : DelArgs) (path : String) (f : YamlFile) :
    Option YamlFile :=
  let net := yaml_to_nx path f
  match del_from_nx args net with
  | .error _ => none
  | .ok net2 => if graphs_equal net net2 then none else some (nx_to_yaml net2)

/-! ## Operation sequences and the forest invariant -/

/-- One mutation of the forest, with its environment inputs. -/
inductive Op where
  | add (args : AddArgs) (name now : String)
  | mod (args : ModArgs) (now : String)
  | del (args : DelArgs)

/-- Run one operation. -/
def applyOp : Op → AssetNet → Except AssetError AssetNet
  | .add args name now, net => add_to_nx args name now net
  | .mod args now, net => mod_nx_node args now net
  | .del args, net => del_from_nx args net

/-- Run a sequence of operations, stopping at the first error. -/
def applyOps : List Op → AssetNet → Except AssetError AssetNet
  | [], net => .ok net
  | op :: rest, net =>
    match applyOp op net with
    | .error e => .error e
    | .ok net2 => applyOps rest net2

/-- Structural well-formedness maintained by every operation: distinct node
ids, and edges running between existing nodes. -/
def WFNet (net : AssetNet) : Prop :=
  (keys net).Nodup ∧ ∀ e ∈ net.edges, e.1 ∈ keys net ∧ e.2 ∈ keys net

instance (net : AssetNet) : Decidable (WFNet net) := by
  unfold WFNet; infer_instance

/-- Every node has at most one parent edge: no id repeats as an edge
target. -/
def InDegLeOne (net : AssetNet) : Prop := (net.edges.map Prod.snd).Nodup

instance (net : AssetNet) : Decidable (InDegLeOne net) := by
  unfold InDegLeOne; infer_instance

/-- The edge relation of the network. -/
def EdgeRel (net : AssetNet) (a b : String) : Prop := (a, b) ∈ net.edges

/-- `b` is reachable from `a` along a nonempty directed path. -/
def Reaches (net : AssetNet) : String → String → Prop :=
  Relation.TransGen (EdgeRel net)

/-- No node lies on a directed cycle. -/
def Acyclic (net : AssetNet) : Prop := ∀ n, ¬ Reaches net n n

/-- A depth measure strictly increasing along edges; its existence
witnesses acyclicity and is preserved by the mutators. -/
def DepthBound (f : String → Nat) (net : AssetNet) : Prop :=
  ∀ e ∈ net.edges, f e.1 < f e.2

/-- The forest invariant: well-formed, in-degree at most one, and a depth
measure (hence acyclic). -/
def Forest (net : AssetNet) : Prop :=
  WFNet net ∧ InDegLeOne net ∧ ∃ f, DepthBound f net

/-- Guarantees the environment provides for an operation: `make_key`
collision-checks the fresh id of an add against the existing ids, and — the
condition the modify operation itself fails to enforce — a re-parent target
must not be the node itself or one of its descendants. -/
def SafeOp : Op → AssetNet → Prop
  | .add _ name _, net => name ∉ keys net
  | .mod args _, net =>
    ∀ psearch, args.parent = some psearch →
      ∀ node m rest, (search_nodes net args.search false false false).nodes = (node, m) :: rest →
        ∀ parent ps, resolve_node net psearch false = parent :: ps →
          parent ≠ node ∧ ¬ Reaches net node parent
  | .del _, _ => True

/-- `SafeOp` holding along a whole successful sequence. -/
def SafeOps : List Op → AssetNet → Prop
  | [], _ => True
  | op :: rest, net =>
    SafeOp op net ∧ ∀ net2, applyOp op net = .ok net2 → SafeOps rest net2

/-! ## Concrete instances used by witnesses and counterexamples -/

/-- A two-node well-formed collection file: a root and one child. -/
def exFile : YamlFile :=
  { store := "s"
    assets := [("r1", { meta := { «alias» := ["a"] } }),
               ("c1", { meta := { «alias» := ["b"] }, parent := some "r1" })] }

/-- Two nodes `a → b`, aliased `a` and `b`. -/
def chainNet : AssetNet :=
  { nodes := [("a", { «alias» := ["a"] }), ("b", { «alias» := ["b"] })]
    edges := [("a", "b")] }

/-- Three-node chain `a → b1 → b2` where both `b1` and `b2` are aliased
`b`; sibling uniqueness holds (they are not siblings). -/
def bbNet : AssetNet :=
  { nodes := [("a", { «alias» := ["a"] }), ("b1", { «alias» := ["b"] }),
              ("b2", { «alias» := ["b"] })]
    edges := [("a", "b1"), ("b1", "b2")] }

/-- A single root aliased `a`, tagged `x` and `y`. -/
def rootNet : AssetNet :=
  { nodes := [("r", { «alias» := ["a"], tag := some ["x", "y"] })] }

/-- A root with one child, for the modify-with-parent witness. -/
def parentNet : AssetNet :=
  { nodes := [("p", { «alias» := ["p"] }), ("c", { «alias» := ["c"] })]
    edges := [("p", "c")] }

/-- Three-node chain `a → b → c` with distinct aliases. -/
def delNet : AssetNet :=
  { nodes := [("a", { «alias» := ["a"] }), ("b", { «alias» := ["b"] }),
              ("c", { «alias» := ["c"] })]
    edges := [("a", "b"), ("b", "c")] }

/-- One-root collection file whose root was last updated at time `t1`. -/
def modFile : YamlFile :=
  { store := "s"
    assets := [("r", { meta := { create_time := "t0", update_time := "t1",
                                 «alias» := ["a"] } })] }

/-- A single node aliased both `banana` and `ban`. -/
def bananaNet : AssetNet :=
  { nodes := [("x", { «alias» := ["banana", "ban"] })] }

/-- A single node aliased only `banana`. -/
def bananaNet2 : AssetNet :=
  { nodes := [("x", { «alias» := ["banana"] })] }

/-- The empty network. -/
def emptyNet : AssetNet := {}

/-- `rootNet` as a persisted collection file. -/
def rootFile : YamlFile :=
  { store := "s"
    assets := [("r", { meta := { «alias» := ["a"], tag := some ["x", "y"] } })] }

/-- Result of adding a node aliased `a` with fresh id `n1` at time `t0` to
the empty network. -/
def addedNet : AssetNet :=
  { nodes := [("n1", { create_time := "t0", update_time := "t0", «alias» := ["a"] })] }

/-- Result of re-parenting `a` under its own child `b` in `chainNet`: the
two-edge cycle the modify operation happily builds. -/
def cycledNet : AssetNet :=
  { nodes := [("a", { update_time := "t", «alias» := ["a"] }), ("b", { «alias» := ["b"] })]
    edges := [("a", "b"), ("b", "a")] }

end Asset

/-! # Theorems -/

namespace Asset

/-! ## Association-list lemmas -/

/-- In a list with distinct keys, a `filterMap` that returns `none` away
from one key collapses to the image of the unique entry carrying it. -/
theorem filterMap_eq_of_unique_key {α β : Type} (l : List (String × α))
    (g : String × α → Option β) (k : String)
    (hn : (l.map Prod.fst).Nodup) (p : String × α) (hp : p ∈ l) (hk : p.1 = k)
    (hg : ∀ q ∈ l, q.1 ≠ k → g q = none) :
    l.filterMap g = (g p).toList := by
  induction l with
  | nil => cases hp
  | cons q t ih =>
    have hn' := hn
    rw [List.map_cons, List.nodup_cons] at hn'
    obtain ⟨hq_notin, hnt⟩ := hn'
    rcases List.mem_cons.mp hp with rfl | hpt
    · have ht : ∀ r ∈ t, g r = none := by
        intro r hr
        apply hg r (List.mem_cons_of_mem _ hr)
        intro hrk
        exact hq_notin (hk ▸ hrk ▸ List.mem_map_of_mem Prod.fst hr)
      have htnil : t.filterMap g = [] := by
        rw [List.filterMap_eq_nil_iff]
        exact ht
      cases hgq : g p with
      | none => simp [List.filterMap_cons, hgq, htnil]
      | some b => simp [List.filterMap_cons, hgq, htnil]
    · have hqk : q.1 ≠ k := by
        intro h
        exact hq_notin (h ▸ hk ▸ List.mem_map_of_mem Prod.fst hpt)
      have hgq : g q = none := hg q (List.mem_cons_self _ _) hqk
      rw [List.filterMap_cons, hgq]
      exact ih hnt hpt (fun r hr => hg r (List.mem_cons_of_mem _ hr))

/-! ## Round-trip of the persistence codec (C2) -/

/-- In the loaded network of a well-formed file, the predecessors of a node
are exactly its persisted `parent` reference. -/
theorem predecessors_yaml_to_nx (path : String) (f : YamlFile) (hf : f.wf)
    (p : String × YamlAsset) (hp : p ∈ f.assets) :
    predecessors (yaml_to_nx path f) p.1 = p.2.parent.toList := by
  unfold predecessors yaml_to_nx
  rw [List.filterMap_filterMap]
  have hmain :
      f.assets.filterMap
        (fun q => ((q.2.parent.map (fun r => (r, q.1))).bind
          (fun e => if e.2 == p.1 then some e.1 else none)))
      = ((p.2.parent.map (fun r => (r, p.1))).bind
          (fun e => if e.2 == p.1 then some e.1 else none)).toList := by
    apply filterMap_eq_of_unique_key f.assets _ p.1 hf.1 p hp rfl
    intro q hq hqk
    cases hparent : q.2.parent with
    | none => rfl
    | some r => simp [hparent, Option.bind, hqk]
  rw [hmain]
  cases hparent : p.2.parent with
  | none => rfl
  | some r => simp [hparent, Option.bind]

/-- C2: for every well-formed collection file, loading into the in-memory
forest and saving back reproduces the file exactly: save's parent
projection inverts load's edge conversion and every other metadata field
passes through unchanged. -/
theorem claim_C2 (path : String) (f : YamlFile) (hf : f.wf) :
    nx_to_yaml (yaml_to_nx path f) = f := by
  unfold nx_to_yaml
  have hassets :
      (yaml_to_nx path f).nodes.map (fun p =>
        (p.1, ({ meta := p.2, parent := (predecessors (yaml_to_nx path f) p.1).head? } : YamlAsset)))
      = f.assets := by
    show (f.assets.map (fun p => (p.1, p.2.meta))).map _ = f.assets
    rw [List.map_map]
    have : ∀ p ∈ f.assets,
        ((fun p => (p.1, ({ meta := p.2, parent := (predecessors (yaml_to_nx path f) p.1).head? } : YamlAsset))) ∘
          (fun p : String × YamlAsset => (p.1, p.2.meta))) p = id p := by
      intro p hp
      have hpred := predecessors_yaml_to_nx path f hf p hp
      have hol : ∀ o : Option String, o.toList.head? = o := by
        intro o; cases o <;> rfl
      simp only [Function.comp, id]
      rw [hpred, hol]
    rw [List.map_congr_left this, List.map_id]
  show ({ store := f.store, assets := _ } : YamlFile) = f
  rw [hassets]

/-- C2 witness: the round-trip at a concrete two-node file. -/
theorem claim_C2_witness :
    exFile.wf ∧ nx_to_yaml (yaml_to_nx "p" exFile) = exFile :=
  ⟨by decide, claim_C2 "p" exFile (by decide)⟩

end Asset

namespace Asset

/-! ## Reachability: the fueled closure computes the transitive closure -/

/-- Membership in `successors` is the edge relation. -/
theorem mem_successors {net : AssetNet} {a b : String} :
    b ∈ successors net a ↔ (a, b) ∈ net.edges := by
  unfold successors
  rw [List.mem_filterMap]
  constructor
  · rintro ⟨e, he, hif⟩
    split at hif
    · next heq =>
      have h2 : e.2 = b := by injection hif
      have h1 : e.1 = a := by simpa using heq
      rw [← h1, ← h2, Prod.mk.eta]
      exact he
    · cases hif
  · intro h
    exact ⟨(a, b), h, by simp⟩

/-- Membership in `predecessors` is the reversed edge relation. -/
theorem mem_predecessors {net : AssetNet} {a b : String} :
    a ∈ predecessors net b ↔ (a, b) ∈ net.edges := by
  unfold predecessors
  rw [List.mem_filterMap]
  constructor
  · rintro ⟨e, he, hif⟩
    split at hif
    · next heq =>
      have h1 : e.1 = a := by injection hif
      have h2 : e.2 = b := by simpa using heq
      rw [← h1, ← h2, Prod.mk.eta]
      exact he
    · cases hif
  · intro h
    exact ⟨(a, b), h, by simp⟩

/-- Membership after one closure round. -/
theorem mem_reach_step {net : AssetNet} {s : List String} {x : String} :
    x ∈ reach_step net s ↔ x ∈ s ∨ ∃ y ∈ s, (y, x) ∈ net.edges := by
  unfold reach_step
  rw [List.mem_dedup, List.mem_append, List.mem_flatMap]
  constructor
  · rintro (h | ⟨y, hy, hyx⟩)
    · exact Or.inl h
    · exact Or.inr ⟨y, hy, mem_successors.mp hyx⟩
  · rintro (h | ⟨y, hy, hyx⟩)
    · exact Or.inl h
    · exact Or.inr ⟨y, hy, mem_successors.mpr hyx⟩

/-- A closure round only grows the set. -/
theorem subset_reach_step (net : AssetNet) (s : List String) :
    s ⊆ reach_step net s := fun _ hx => mem_reach_step.mpr (Or.inl hx)

/-- A closure round is monotone in the set. -/
theorem reach_step_mono {net : AssetNet} {s t : List String} (h : s ⊆ t) :
    reach_step net s ⊆ reach_step net t := by
  intro x hx
  rcases mem_reach_step.mp hx with h1 | ⟨y, hy, hyx⟩
  · exact mem_reach_step.mpr (Or.inl (h h1))
  · exact mem_reach_step.mpr (Or.inr ⟨y, h hy, hyx⟩)

/-- Unfolding the iteration from the right. -/
theorem iter_step_succ_right (net : AssetNet) (k : Nat) (s : List String) :
    iter_step net (k + 1) s = reach_step net (iter_step net k s) := by
  induction k generalizing s with
  | zero => rfl
  | succ k ih =>
    show iter_step net (k + 1) (reach_step net s) = _
    rw [ih (reach_step net s)]
    rfl

/-- The iterated closure contains its seed. -/
theorem subset_iter_step (net : AssetNet) (k : Nat) (s : List String) :
    s ⊆ iter_step net k s := by
  induction k generalizing s with
  | zero => exact fun _ h => h
  | succ k ih =>
    exact fun x hx => (ih (reach_step net s)) (subset_reach_step net s hx)

/-- The iterated closure is monotone in the seed. -/
theorem iter_step_mono {net : AssetNet} (k : Nat) {s t : List String} (h : s ⊆ t) :
    iter_step net k s ⊆ iter_step net k t := by
  induction k generalizing s t with
  | zero => exact h
  | succ k ih => exact ih (reach_step_mono h)

/-- Earlier iterates are contained in later ones. -/
theorem iter_step_le_subset (net : AssetNet) {k m : Nat} (h : k ≤ m) (s : List String) :
    iter_step net k s ⊆ iter_step net m s := by
  induction m with
  | zero =>
    have : k = 0 := Nat.le_zero.mp h
    subst this; exact fun _ h => h
  | succ m ih =>
    rcases Nat.lt_or_ge k (m + 1) with hlt | hge
    · have hk : k ≤ m := Nat.lt_succ_iff.mp hlt
      intro x hx
      rw [iter_step_succ_right]
      exact subset_reach_step net _ (ih hk hx)
    · have : k = m + 1 := Nat.le_antisymm h hge
      subst this; exact fun _ h => h

/-- The iterated closure of a duplicate-free seed is duplicate-free. -/
theorem iter_step_nodup (net : AssetNet) (k : Nat) {s : List String}
    (hs : s.Nodup) : (iter_step net k s).Nodup := by
  induction k generalizing s with
  | zero => exact hs
  | succ k ih => exact ih (List.nodup_dedup _)

/-- On a well-formed network, the iterated closure of a seed inside the
node set stays inside the node set. -/
theorem iter_step_subset_keys {net : AssetNet} (hwf : WFNet net) (k : Nat)
    {s : List String} (hs : ∀ x ∈ s, x ∈ keys net) :
    ∀ x ∈ iter_step net k s, x ∈ keys net := by
  induction k generalizing s with
  | zero => exact hs
  | succ k ih =>
    apply ih
    intro x hx
    rcases mem_reach_step.mp hx with h | ⟨y, _, hyx⟩
    · exact hs x h
    · exact (hwf.2 (y, x) hyx).2

/-- Everything the iterated closure of `[n]` reaches is `n` or properly
reachable from `n`. -/
theorem iter_step_sound (net : AssetNet) (k : Nat) {n x : String}
    (h : x ∈ iter_step net k [n]) : x = n ∨ Reaches net n x := by
  induction k generalizing x with
  | zero => exact Or.inl (by simpa [iter_step] using h)
  | succ k ih =>
    rw [iter_step_succ_right] at h
    rcases mem_reach_step.mp h with h1 | ⟨y, hy, hyx⟩
    · exact ih h1
    · rcases ih hy with rfl | hr
      · exact Or.inr (Relation.TransGen.single hyx)
      · exact Or.inr (Relation.TransGen.tail hr hyx)

/-- Once one round adds nothing, no later round ever adds anything. -/
theorem iter_step_stab (net : AssetNet) {n : String} {j : Nat}
    (h : iter_step net (j + 1) [n] ⊆ iter_step net j [n]) :
    ∀ m, iter_step net m [n] ⊆ iter_step net j [n] := by
  have hstep : ∀ d, iter_step net (j + d) [n] ⊆ iter_step net j [n] := by
    intro d
    induction d with
    | zero => exact fun _ h => h
    | succ d ih =>
      have : iter_step net (j + d + 1) [n] ⊆ iter_step net (j + 1) [n] := by
        rw [iter_step_succ_right, iter_step_succ_right]
        exact reach_step_mono ih
      exact fun x hx => h (this hx)
  intro m
  rcases Nat.le_total m j with hle | hge
  · exact iter_step_le_subset net hle [n]
  · have : m = j + (m - j) := by omega
    rw [this]
    exact hstep (m - j)

/-- A round that adds something grows the length strictly. -/
theorem iter_step_growth (net : AssetNet) {n : String} {j : Nat}
    (h : ¬ iter_step net (j + 1) [n] ⊆ iter_step net j [n]) :
    (iter_step net j [n]).length + 1 ≤ (iter_step net (j + 1) [n]).length := by
  obtain ⟨x, hxB, hxA⟩ : ∃ x ∈ iter_step net (j + 1) [n], x ∉ iter_step net j [n] := by
    by_contra hc
    push_neg at hc
    exact h hc
  have hAB : iter_step net j [n] ⊆ iter_step net (j + 1) [n] :=
    iter_step_le_subset net (Nat.le_succ j) [n]
  have hA : (iter_step net j [n]).Nodup := iter_step_nodup net j (by simp)
  have hcons : (x :: iter_step net j [n]).Nodup := List.nodup_cons.mpr ⟨hxA, hA⟩
  have hsub : (x :: iter_step net j [n]) ⊆ iter_step net (j + 1) [n] := by
    intro y hy
    rcases List.mem_cons.mp hy with rfl | hyA
    · exact hxB
    · exact hAB hyA
  have := (hcons.subperm hsub).length_le
  simpa using this

/-- While no round has stabilized, lengths grow linearly. -/
theorem iter_step_no_stab_growth (net : AssetNet) {n : String} :
    ∀ k, (∀ j, j < k → ¬ iter_step net (j + 1) [n] ⊆ iter_step net j [n]) →
      k + 1 ≤ (iter_step net k [n]).length := by
  intro k
  induction k with
  | zero => intro _; simp [iter_step]
  | succ k ih =>
    intro h
    have h1 := ih (fun j hj => h j (Nat.lt_succ_of_lt hj))
    have h2 := iter_step_growth net (h k (Nat.lt_succ_self k))
    omega

/-- The iterated closure of a node never outgrows the node set. -/
theorem iter_step_length_le {net : AssetNet} (hwf : WFNet net) {n : String}
    (hn : n ∈ keys net) (k : Nat) :
    (iter_step net k [n]).length ≤ net.nodes.length := by
  have hsub : iter_step net k [n] ⊆ keys net := by
    intro x hx
    refine iter_step_subset_keys hwf k ?_ x hx
    intro y hy
    rw [List.mem_singleton] at hy
    subst hy
    exact hn
  have hnd : (iter_step net k [n]).Nodup := iter_step_nodup net k (by simp)
  have := (hnd.subperm hsub).length_le
  simpa [keys] using this

/-- Some round within the fuel budget stabilizes. -/
theorem iter_step_exists_stab {net : AssetNet} (hwf : WFNet net) {n : String}
    (hn : n ∈ keys net) :
    ∃ j, j < net.nodes.length ∧ iter_step net (j + 1) [n] ⊆ iter_step net j [n] := by
  by_contra hc
  push_neg at hc
  have hgrow := iter_step_no_stab_growth net net.nodes.length
    (fun j hj => hc j hj)
  have hlen := iter_step_length_le hwf hn net.nodes.length
  omega

/-- Completeness: on a well-formed network, every node reachable from `n`
appears in the fuel-bounded closure. -/
theorem iter_step_complete {net : AssetNet} (hwf : WFNet net) {n x : String}
    (hn : n ∈ keys net) (h : Relation.ReflTransGen (EdgeRel net) n x) :
    x ∈ iter_step net net.nodes.length [n] := by
  have hex : ∃ m, x ∈ iter_step net m [n] := by
    induction h with
    | refl => exact ⟨0, by simp [iter_step]⟩
    | tail hab hbc ih =>
      obtain ⟨m, hm⟩ := ih
      refine ⟨m + 1, ?_⟩
      rw [iter_step_succ_right]
      exact mem_reach_step.mpr (Or.inr ⟨_, hm, hbc⟩)
  obtain ⟨m, hm⟩ := hex
  obtain ⟨j, hj, hstab⟩ := iter_step_exists_stab hwf hn
  exact iter_step_le_subset net (Nat.le_of_lt hj) [n]
    (iter_step_stab net hstab m hm)

/-- Soundness of `descendants`: members are proper descendants. -/
theorem mem_descendants_sound {net : AssetNet} {n x : String}
    (h : x ∈ descendants net n) : Reaches net n x ∧ x ≠ n := by
  unfold descendants at h
  rw [List.mem_filter] at h
  have hne : x ≠ n := by simpa using h.2
  rcases iter_step_sound net _ h.1 with rfl | hr
  · exact absurd rfl hne
  · exact ⟨hr, hne⟩

/-- Completeness of `descendants` on a well-formed network. -/
theorem mem_descendants_complete {net : AssetNet} (hwf : WFNet net) {n x : String}
    (hn : n ∈ keys net) (hr : Reaches net n x) (hx : x ≠ n) :
    x ∈ descendants net n := by
  unfold descendants
  rw [List.mem_filter]
  exact ⟨iter_step_complete hwf hn hr.to_reflTransGen, by simpa using hx⟩

/-- `descendants` lists no duplicates. -/
theorem descendants_nodup (net : AssetNet) (n : String) :
    (descendants net n).Nodup :=
  (iter_step_nodup net _ (by simp)).filter _

/-- A node is not its own descendant in the computed list. -/
theorem not_mem_descendants_self (net : AssetNet) (n : String) :
    n ∉ descendants net n := by
  unfold descendants
  intro h
  rw [List.mem_filter] at h
  simpa using h.2

/-- On a well-formed network, descendants of an existing node exist. -/
theorem descendants_subset_keys {net : AssetNet} (hwf : WFNet net) {n : String}
    (hn : n ∈ keys net) : ∀ x ∈ descendants net n, x ∈ keys net := by
  intro x hx
  unfold descendants at hx
  rw [List.mem_filter] at hx
  refine iter_step_subset_keys hwf _ ?_ x hx.1
  intro y hy
  rw [List.mem_singleton] at hy
  subst hy
  exact hn

/-- A direct child is a computed descendant (on a well-formed network). -/
theorem child_mem_descendants {net : AssetNet} (hwf : WFNet net) {a b : String}
    (ha : a ∈ keys net) (hab : (a, b) ∈ net.edges) (hne : b ≠ a) :
    b ∈ descendants net a :=
  mem_descendants_complete hwf ha (Relation.TransGen.single hab) hne

end Asset

namespace Asset

/-! ## Basic network lemmas -/

/-- Boolean membership and propositional membership agree. -/
theorem contains_iff {α} [BEq α] [LawfulBEq α] {l : List α} {a : α} :
    l.contains a = true ↔ a ∈ l := by
  simp

/-- Nodes of an induced sub-network are nodes of the network. -/
theorem mem_nodes_subgraph {net : AssetNet} {l : List String}
    {p : String × NodeMeta} (h : p ∈ (net.subgraph l).nodes) :
    p ∈ net.nodes ∧ p.1 ∈ l := by
  unfold AssetNet.subgraph at h
  rw [List.mem_filter] at h
  exact ⟨h.1, contains_iff.mp h.2⟩

/-- Ids of an induced sub-network are ids of the network. -/
theorem keys_subgraph_subset {net : AssetNet} {l : List String} :
    keys (net.subgraph l) ⊆ keys net := by
  intro x hx
  unfold keys at hx ⊢
  rw [List.mem_map] at hx ⊢
  obtain ⟨p, hp, rfl⟩ := hx
  exact ⟨p, (mem_nodes_subgraph hp).1, rfl⟩

/-- Segment filtering returns ids of the network. -/
theorem seg_filter_subset_keys {net : AssetNet} {fz : Bool} {a : String}
    {tag : List String} : seg_filter net fz a tag ⊆ keys net := by
  intro x hx
  unfold seg_filter at hx
  rw [List.mem_map] at hx
  obtain ⟨p, hp, rfl⟩ := hx
  exact List.mem_map_of_mem Prod.fst (List.mem_of_mem_filter hp)

/-- Resolution only ever returns ids of the network. -/
theorem resolve_go_subset_keys (net : AssetNet) (fz : Bool)
    (segs : List (List String)) : resolve_go net fz segs ⊆ keys net := by
  induction segs generalizing net with
  | nil => intro x hx; cases hx
  | cons seg rest ih =>
    cases rest with
    | nil =>
      intro x hx
      exact seg_filter_subset_keys hx
    | cons seg2 rest2 =>
      intro x hx
      have := ih (net.subgraph _) hx
      exact keys_subgraph_subset this

/-- `resolve_node` only returns ids of the network. -/
theorem resolve_node_subset_keys (net : AssetNet) (s : String) (fz : Bool) :
    resolve_node net s fz ⊆ keys net :=
  resolve_go_subset_keys net fz _

/-- With all expansion flags off, `search_nodes` is the sub-network induced
on the exact resolution. -/
theorem search_nodes_plain (net : AssetNet) (s : String) :
    search_nodes net s false false false
      = net.subgraph (resolve_node net s false) := by
  unfold search_nodes
  simp

/-- Association-list lookup with distinct keys retrieves a stored entry. -/
theorem find_value_eq {l : List (String × NodeMeta)}
    (hn : (l.map Prod.fst).Nodup) {n : String} {m : NodeMeta}
    (h : (n, m) ∈ l) :
    ((l.find? (fun p => p.1 == n)).map Prod.snd).getD default = m := by
  induction l with
  | nil => cases h
  | cons q t ih =>
    have hn2 := hn
    rw [List.map_cons, List.nodup_cons] at hn2
    obtain ⟨hq_notin, hnt⟩ := hn2
    rcases List.mem_cons.mp h with rfl | hmt
    · rw [List.find?_cons]
      have hb : ((n, m).1 == n) = true := by simp
      rw [hb]
      rfl
    · have hqn : q.1 ≠ n := by
        intro hq
        exact hq_notin (hq ▸ List.mem_map_of_mem Prod.fst hmt)
      rw [List.find?_cons]
      have hb : (q.1 == n) = false := by simpa using hqn
      rw [hb]
      exact ih hnt hmt

/-- With distinct ids, `metaOf` retrieves the stored metadata. -/
theorem metaOf_eq_of_mem {net : AssetNet} (hn : (keys net).Nodup)
    {n : String} {m : NodeMeta} (h : (n, m) ∈ net.nodes) :
    metaOf net n = m :=
  find_value_eq (by simpa [keys] using hn) h

/-- In a list with distinct keys, filtering by a predicate true exactly on
one present key yields the singleton of its entry. -/
theorem filter_eq_singleton_of_unique {α : Type} (l : List (String × α))
    (p : String × α → Bool) (k : String) (v : α)
    (hn : (l.map Prod.fst).Nodup) (hm : (k, v) ∈ l) (hp : p (k, v) = true)
    (hu : ∀ q ∈ l, p q = true → q.1 = k) : l.filter p = [(k, v)] := by
  induction l with
  | nil => cases hm
  | cons q t ih =>
    have hn2 := hn
    rw [List.map_cons, List.nodup_cons] at hn2
    obtain ⟨hq_notin, hnt⟩ := hn2
    rcases List.mem_cons.mp hm with rfl | hmt
    · rw [List.filter_cons_of_pos hp]
      have ht : t.filter p = [] := by
        rw [List.filter_eq_nil_iff]
        intro r hr hpr
        have hrk : r.1 = k := hu r (List.mem_cons_of_mem _ hr) hpr
        have hmem : r.1 ∈ t.map Prod.fst := List.mem_map_of_mem Prod.fst hr
        rw [hrk] at hmem
        exact hq_notin hmem
      rw [ht]
    · have hqk : q.1 ≠ k := by
        intro hq
        exact hq_notin (hq ▸ List.mem_map_of_mem Prod.fst hmt)
      have hpq : p q = false := by
        cases hpq : p q with
        | false => rfl
        | true => exact absurd (hu q (List.mem_cons_self _ _) hpq) hqk
      rw [List.filter_cons_of_neg (by simp [hpq])]
      exact ih hnt hmt (fun r hr hpr => hu r (List.mem_cons_of_mem _ hr) hpr)

end Asset

namespace Asset

/-! ## Forest invariant preservation (C1) -/

/-- A reachability step strictly increases any depth measure. -/
theorem reaches_lt_of_depthBound {net : AssetNet} {f : String → Nat}
    (h : DepthBound f net) {a b : String} (hr : Reaches net a b) : f a < f b := by
  induction hr with
  | single h1 => exact h _ h1
  | tail _ h1 ih => exact lt_trans ih (h _ h1)

/-- A depth measure witnesses acyclicity. -/
theorem acyclic_of_depthBound {net : AssetNet} {f : String → Nat}
    (h : DepthBound f net) : Acyclic net := fun n hn =>
  lt_irrefl (f n) (reaches_lt_of_depthBound h hn)

/-- A forest is acyclic. -/
theorem Forest.acyclic {net : AssetNet} (h : Forest net) : Acyclic net := by
  obtain ⟨f, hf⟩ := h.2.2
  exact acyclic_of_depthBound hf

/-- With no id repeating as an edge target, each pair of edges into the
same node coincides in its source. -/
theorem indeg_unique {net : AssetNet} (h : InDegLeOne net) {x y b : String}
    (hx : (x, b) ∈ net.edges) (hy : (y, b) ∈ net.edges) : x = y := by
  have := List.inj_on_of_nodup_map h hx hy rfl
  exact congrArg Prod.fst this

/-- Length bound for extracting sources of edges into one target out of an
edge list with pairwise distinct targets. -/
theorem filterMap_snd_length_le_one (l : List (String × String))
    (h : (l.map Prod.snd).Nodup) (n : String) :
    (l.filterMap (fun e => if e.2 == n then some e.1 else none)).length ≤ 1 := by
  induction l with
  | nil => simp
  | cons e t ih =>
    rw [List.map_cons, List.nodup_cons] at h
    obtain ⟨he_notin, hnt⟩ := h
    rw [List.filterMap_cons]
    split
    · exact ih hnt
    · next b heq =>
      have hsnd : e.2 = n := by
        by_contra hne
        have : (e.2 == n) = false := by simpa using hne
        simp [this] at heq
      have ht : t.filterMap (fun e => if e.2 == n then some e.1 else none) = [] := by
        rw [List.filterMap_eq_nil_iff]
        intro r hr
        have hrn : r.2 ≠ n := by
          intro hrn
          exact he_notin (hsnd ▸ hrn ▸ List.mem_map_of_mem Prod.snd hr)
        have : (r.2 == n) = false := by simpa using hrn
        simp [this]
      rw [ht]
      simp

/-- `InDegLeOne` bounds the length of every predecessor list by one. -/
theorem predecessors_length_le_one {net : AssetNet} (h : InDegLeOne net)
    (n : String) : (predecessors net n).length ≤ 1 :=
  filterMap_snd_length_le_one net.edges h n

/-- The forest invariant transfers along id-list and edge-list equality. -/
theorem forest_of_eq {a b : AssetNet} (hk : keys b = keys a)
    (he : b.edges = a.edges) (h : Forest a) : Forest b := by
  obtain ⟨⟨hnd, hends⟩, hdeg, f, hf⟩ := h
  refine ⟨⟨?_, ?_⟩, ?_, f, ?_⟩
  · rw [hk]; exact hnd
  · intro e heb
    rw [he] at heb
    rw [hk]
    exact hends e heb
  · unfold InDegLeOne
    rw [he]
    exact hdeg
  · intro e heb
    rw [he] at heb
    exact hf e heb

/-- Updating one node's metadata changes no id. -/
theorem keys_set_meta (net : AssetNet) (n : String) (m : NodeMeta) :
    keys (set_meta net n m) = keys net := by
  unfold keys set_meta
  rw [List.map_map]
  apply List.map_congr_left
  intro p _
  show (if (p.1 == n) = true then (p.1, m) else p).1 = p.1
  split <;> rfl

/-- Edges are untouched by a metadata update. -/
theorem edges_set_meta (net : AssetNet) (n : String) (m : NodeMeta) :
    (set_meta net n m).edges = net.edges := rfl

/-- A metadata update preserves the forest invariant. -/
theorem Forest.set_meta {net : AssetNet} (h : Forest net) (n : String)
    (m : NodeMeta) : Forest (Asset.set_meta net n m) :=
  forest_of_eq (keys_set_meta net n m) (edges_set_meta net n m) h

/-- A successful explicit parent resolution names an existing node. -/
theorem add_scope_parent_mem {args : AddArgs} {net : AssetNet}
    {scope : List String} {parent : String}
    (h : add_scope args net = .ok (scope, some parent)) : parent ∈ keys net := by
  unfold add_scope at h
  cases hp : args.parent with
  | none =>
    rw [hp] at h
    dsimp only at h
    cases h
  | some psearch =>
    rw [hp] at h
    dsimp only at h
    by_cases hlen : (resolve_node net psearch false).length > 1
    · rw [if_pos hlen] at h; cases h
    · rw [if_neg hlen] at h
      cases hres : resolve_node net psearch false with
      | nil => rw [hres] at h; dsimp only at h; cases h
      | cons q qs =>
        rw [hres] at h
        dsimp only at h
        have hq : q = parent := by
          injection h with h1
          injection h1 with _ h2
          exact Option.some.inj h2
        subst hq
        exact resolve_node_subset_keys net psearch false (hres ▸ List.mem_cons_self q qs)

/-- `add_to_nx` preserves the forest invariant when the generated id is
fresh (as `make_key` guarantees). -/
theorem Forest.add {args : AddArgs} {name now : String} {net net' : AssetNet}
    (hF : Forest net) (hfresh : name ∉ keys net)
    (h : add_to_nx args name now net = .ok net') : Forest net' := by
  obtain ⟨⟨hnd, hends⟩, hdeg, f, hf⟩ := hF
  unfold add_to_nx at h
  cases hsc : add_scope args net with
  | error e => rw [hsc] at h; dsimp only at h; cases h
  | ok pr =>
    obtain ⟨scope, parentOpt⟩ := pr
    rw [hsc] at h
    dsimp only at h
    cases hdc : dup_check net scope args.tag args.«alias» with
    | error e => rw [hdc] at h; dsimp only at h; cases h
    | ok u =>
      rw [hdc] at h
      dsimp only at h
      cases hpo : parentOpt with
      | none =>
        rw [hpo] at h
        dsimp only at h
        obtain rfl : _ = net' := Except.ok.inj h
        have hkeys : keys { net with nodes := net.nodes ++ [(name, add_meta args name now none net)] }
            = keys net ++ [name] := by
          unfold keys
          rw [List.map_append]
          rfl
        refine ⟨⟨?_, ?_⟩, hdeg, f, hf⟩
        · rw [hkeys, List.nodup_append]
          exact ⟨hnd, List.nodup_singleton name, by
            intro x hx hx2
            rw [List.mem_singleton] at hx2
            exact hfresh (hx2 ▸ hx)⟩
        · intro e he
          rw [hkeys]
          have := hends e he
          exact ⟨List.mem_append_left _ this.1, List.mem_append_left _ this.2⟩
      | some parent =>
        rw [hpo] at h
        dsimp only at h
        obtain rfl : _ = net' := Except.ok.inj h
        have hpar : parent ∈ keys net := add_scope_parent_mem (hpo ▸ hsc)
        have hkeys : keys { net with
            nodes := net.nodes ++ [(name, add_meta args name now (some parent) net)],
            edges := net.edges ++ [(parent, name)] } = keys net ++ [name] := by
          unfold keys
          rw [List.map_append]
          rfl
        refine ⟨⟨?_, ?_⟩, ?_, ?_⟩
        · rw [hkeys, List.nodup_append]
          exact ⟨hnd, List.nodup_singleton name, by
            intro x hx hx2
            rw [List.mem_singleton] at hx2
            exact hfresh (hx2 ▸ hx)⟩
        · intro e he
          rw [hkeys]
          rcases List.mem_append.mp he with he | he
          · have := hends e he
            exact ⟨List.mem_append_left _ this.1, List.mem_append_left _ this.2⟩
          · rw [List.mem_singleton] at he
            subst he
            exact ⟨List.mem_append_left _ hpar, List.mem_append_right _ (by simp)⟩
        · show ((net.edges ++ [(parent, name)]).map Prod.snd).Nodup
          rw [List.map_append, List.nodup_append]
          refine ⟨hdeg, by simp, ?_⟩
          intro x hx hx2
          simp only [List.map_cons, List.map_nil, List.mem_singleton] at hx2
          subst hx2
          rw [List.mem_map] at hx
          obtain ⟨e, he, hesnd⟩ := hx
          exact hfresh (hesnd ▸ (hends e he).2)
        · refine ⟨fun x => if x = name then f parent + 1 else f x, ?_⟩
          intro e he
          rcases List.mem_append.mp he with he | he
          · have h1 : e.1 ≠ name := fun hc => hfresh (hc ▸ (hends e he).1)
            have h2 : e.2 ≠ name := fun hc => hfresh (hc ▸ (hends e he).2)
            simp only [if_neg h1, if_neg h2]
            exact hf e he
          · rw [List.mem_singleton] at he
            subst he
            have h1 : parent ≠ name := fun hc => hfresh (hc ▸ hpar)
            show (if parent = name then f parent + 1 else f parent)
              < (if name = name then f parent + 1 else f name)
            rw [if_neg h1, if_pos rfl]
            omega

/-- Removing one node preserves the forest invariant. -/
theorem Forest.remove_node {net : AssetNet} (h : Forest net) (n : String) :
    Forest (Asset.remove_node net n) := by
  obtain ⟨⟨hnd, hends⟩, hdeg, f, hf⟩ := h
  have hkeys : keys (Asset.remove_node net n)
      = (keys net).filter (fun x => x != n) := by
    unfold keys Asset.remove_node
    rw [List.filter_map]
    rfl
  refine ⟨⟨?_, ?_⟩, ?_, f, ?_⟩
  · rw [hkeys]
    exact hnd.filter _
  · intro e he
    have hem : e ∈ net.edges.filter (fun e => e.1 != n && e.2 != n) := he
    rw [List.mem_filter] at hem
    obtain ⟨hem, hcond⟩ := hem
    have h1 : e.1 ≠ n ∧ e.2 ≠ n := by
      constructor <;> · intro hc; simp [hc] at hcond
    rw [hkeys]
    constructor
    · rw [List.mem_filter]
      exact ⟨(hends e hem).1, by simpa using h1.1⟩
    · rw [List.mem_filter]
      exact ⟨(hends e hem).2, by simpa using h1.2⟩
  · show ((net.edges.filter _).map Prod.snd).Nodup
    exact hdeg.sublist ((List.filter_sublist _).map Prod.snd)
  · intro e he
    exact hf e (List.mem_of_mem_filter he)

/-- Removing a batch of nodes preserves the forest invariant. -/
theorem Forest.remove_nodes_from {net : AssetNet} (h : Forest net)
    (l : List String) : Forest (Asset.remove_nodes_from net l) := by
  unfold Asset.remove_nodes_from
  induction l generalizing net with
  | nil => exact h
  | cons x t ih => exact ih (h.remove_node x)

/-- `del_from_nx` preserves the forest invariant. -/
theorem Forest.del {args : DelArgs} {net net' : AssetNet} (hF : Forest net)
    (h : del_from_nx args net = .ok net') : Forest net' := by
  unfold del_from_nx at h
  by_cases hlen : (search_nodes net args.search false false false).nodes.length > 1
  · rw [if_pos hlen] at h; cases h
  · rw [if_neg hlen] at h
    cases hsub : (search_nodes net args.search false false false).nodes with
    | nil =>
      rw [hsub] at h
      dsimp only at h
      obtain rfl : net = net' := Except.ok.inj h
      exact hF
    | cons q rest =>
      obtain ⟨node, m⟩ := q
      rw [hsub] at h
      dsimp only at h
      by_cases hdeg : ((successors net node).length != 0) = true
      · rw [if_pos hdeg] at h
        by_cases hrec : (!args.recursive) = true
        · rw [if_pos hrec] at h; cases h
        · rw [if_neg hrec] at h
          obtain rfl : _ = net' := Except.ok.inj h
          exact (hF.remove_nodes_from _).remove_node _
      · rw [if_neg hdeg] at h
        obtain rfl : _ = net' := Except.ok.inj h
        exact hF.remove_node _

end Asset

namespace Asset

/-- The head of a plain search resolution is a node of the network. -/
theorem search_head_mem {net : AssetNet} {s : String} {node : String}
    {m : NodeMeta} {rest : List (String × NodeMeta)}
    (h : (search_nodes net s false false false).nodes = (node, m) :: rest) :
    (node, m) ∈ net.nodes := by
  have hmem : (node, m) ∈ (search_nodes net s false false false).nodes :=
    h ▸ List.mem_cons_self _ _
  rw [search_nodes_plain] at hmem
  exact (mem_nodes_subgraph hmem).1

/-- Re-wiring a node under a parent that exists keeps edges inside the node
set. -/
theorem wf_reparent {net : AssetNet} (hwf : WFNet net) {node parent : String}
    (hpar : parent ∈ keys net) (hnode : node ∈ keys net) :
    WFNet { net with
      edges := (net.edges.filter (fun e => e.2 != node)) ++ [(parent, node)] } := by
  refine ⟨hwf.1, ?_⟩
  intro e he
  rcases List.mem_append.mp he with he | he
  · exact hwf.2 e (List.mem_of_mem_filter he)
  · rw [List.mem_singleton] at he
    subst he
    exact ⟨hpar, hnode⟩

/-- Dropping every edge into a node and adding a single new one keeps
in-degrees at most one. -/
theorem indeg_reparent {net : AssetNet} (hdeg : InDegLeOne net)
    (node parent : String) :
    InDegLeOne { net with
      edges := (net.edges.filter (fun e => e.2 != node)) ++ [(parent, node)] } := by
  unfold InDegLeOne
  show (((net.edges.filter (fun e => e.2 != node)) ++ [(parent, node)]).map Prod.snd).Nodup
  rw [List.map_append, List.nodup_append]
  refine ⟨hdeg.sublist ((List.filter_sublist _).map Prod.snd), by simp, ?_⟩
  intro x hx hx2
  simp only [List.map_cons, List.map_nil, List.mem_singleton] at hx2
  rw [List.mem_map] at hx
  obtain ⟨e, he, hesnd⟩ := hx
  have hcond : e.2 ≠ node := by simpa using List.of_mem_filter he
  exact hcond (hesnd.trans hx2)

/-- Re-parenting below a non-descendant preserves the depth measure: nodes
reachable from the moved node are shifted upward uniformly. -/
theorem depthBound_reparent {net : AssetNet} {f : String → Nat}
    (hf : DepthBound f net) (hdeg : InDegLeOne net)
    {node parent : String} (hne : parent ≠ node)
    (hnr : ¬ Reaches net node parent) :
    ∃ g, DepthBound g
      { net with
        edges := (net.edges.filter (fun e => e.2 != node)) ++ [(parent, node)] } := by
  classical
  refine ⟨fun x => if Relation.ReflTransGen (EdgeRel net) node x
    then f x + f parent + 1 else f x, ?_⟩
  intro e he
  rcases List.mem_append.mp he with he | he
  · have hmem := List.mem_of_mem_filter he
    have hne2 : e.2 ≠ node := by simpa using List.of_mem_filter he
    show (if Relation.ReflTransGen (EdgeRel net) node e.1 then f e.1 + f parent + 1 else f e.1)
      < (if Relation.ReflTransGen (EdgeRel net) node e.2 then f e.2 + f parent + 1 else f e.2)
    by_cases h1 : Relation.ReflTransGen (EdgeRel net) node e.1
    · have h2 : Relation.ReflTransGen (EdgeRel net) node e.2 :=
        Relation.ReflTransGen.tail h1 hmem
      rw [if_pos h1, if_pos h2]
      have := hf e hmem
      omega
    · have h2 : ¬ Relation.ReflTransGen (EdgeRel net) node e.2 := by
        intro h2
        rcases Relation.ReflTransGen.cases_tail h2 with heq | ⟨c, hc, hcb⟩
        · exact hne2 heq
        · have hmem2 : (e.1, e.2) ∈ net.edges := by
            rw [Prod.mk.eta]
            exact hmem
          have hc1 : c = e.1 := indeg_unique hdeg hcb hmem2
          exact h1 (hc1 ▸ hc)
      rw [if_neg h1, if_neg h2]
      exact hf e hmem
  · rw [List.mem_singleton] at he
    subst he
    have h1 : ¬ Relation.ReflTransGen (EdgeRel net) node parent := by
      intro h1
      rcases Relation.reflTransGen_iff_eq_or_transGen.mp h1 with heq | htg
      · exact hne heq
      · exact hnr htg
    have h2 : Relation.ReflTransGen (EdgeRel net) node node :=
      Relation.ReflTransGen.refl
    show (if Relation.ReflTransGen (EdgeRel net) node parent then f parent + f parent + 1 else f parent)
      < (if Relation.ReflTransGen (EdgeRel net) node node then f node + f parent + 1 else f node)
    rw [if_neg h1, if_pos h2]
    omega

/-- `mod_nx_node` preserves the forest invariant when a requested new
parent is neither the target nor one of its descendants. -/
theorem Forest.mod {args : ModArgs} {now : String} {net net' : AssetNet}
    (hF : Forest net) (hsafe : SafeOp (Op.mod args now) net)
    (h : mod_nx_node args now net = .ok net') : Forest net' := by
  unfold mod_nx_node at h
  by_cases hlen : (search_nodes net args.search false false false).nodes.length > 1
  · rw [if_pos hlen] at h; cases h
  · rw [if_neg hlen] at h
    cases hsub : (search_nodes net args.search false false false).nodes with
    | nil =>
      rw [hsub] at h
      dsimp only at h
      obtain rfl : net = net' := Except.ok.inj h
      exact hF
    | cons q rest =>
      obtain ⟨node, m⟩ := q
      rw [hsub] at h
      dsimp only at h
      cases hrp : mod_reparent args net node with
      | error e => rw [hrp] at h; dsimp only at h; cases h
      | ok tr =>
        obtain ⟨net2, scope, parentOpt⟩ := tr
        rw [hrp] at h
        dsimp only at h
        cases hmc : mod_merge_check args net2 node scope with
        | error e => rw [hmc] at h; dsimp only at h; cases h
        | ok meta2 =>
          rw [hmc] at h
          dsimp only at h
          obtain rfl : _ = net' := Except.ok.inj h
          have hnode : node ∈ keys net :=
            List.mem_map_of_mem Prod.fst (search_head_mem hsub)
          have hF2 : Forest net2 := by
            unfold mod_reparent at hrp
            cases hp : args.parent with
            | none =>
              rw [hp] at hrp
              dsimp only at hrp
              cases hpred : predecessors net node with
              | nil =>
                rw [hpred] at hrp
                dsimp only at hrp
                have h3 := Except.ok.inj hrp
                simp only [Prod.mk.injEq] at h3
                obtain ⟨rfl, -, -⟩ := h3
                exact hF
              | cons p ps =>
                rw [hpred] at hrp
                dsimp only at hrp
                have h3 := Except.ok.inj hrp
                simp only [Prod.mk.injEq] at h3
                obtain ⟨rfl, -, -⟩ := h3
                exact hF
            | some psearch =>
              rw [hp] at hrp
              dsimp only at hrp
              by_cases hl2 : (resolve_node net psearch false).length > 1
              · rw [if_pos hl2] at hrp; cases hrp
              · rw [if_neg hl2] at hrp
                cases hres : resolve_node net psearch false with
                | nil => rw [hres] at hrp; dsimp only at hrp; cases hrp
                | cons parent ps =>
                  rw [hres] at hrp
                  dsimp only at hrp
                  have h3 := Except.ok.inj hrp
                  simp only [Prod.mk.injEq] at h3
                  obtain ⟨hnet2, -, -⟩ := h3
                  obtain ⟨hpne, hprnr⟩ :=
                    hsafe psearch hp node m rest hsub parent ps hres
                  have hpar : parent ∈ keys net :=
                    resolve_node_subset_keys net psearch false
                      (hres ▸ List.mem_cons_self parent ps)
                  obtain ⟨⟨hnd, hends⟩, hdeg, f, hf⟩ := hF
                  rw [← hnet2]
                  exact ⟨wf_reparent ⟨hnd, hends⟩ hpar hnode,
                    indeg_reparent hdeg node parent,
                    depthBound_reparent hf hdeg hpne hprnr⟩
          exact hF2.set_meta node _

/-- One safe successful operation preserves the forest invariant. -/
theorem forest_applyOp {op : Op} {net net' : AssetNet} (hF : Forest net)
    (hsafe : SafeOp op net) (h : applyOp op net = .ok net') : Forest net' := by
  cases op with
  | add args name now => exact hF.add hsafe h
  | mod args now => exact hF.mod hsafe h
  | del args => exact hF.del h

/-- A safe successful sequence of operations preserves the forest
invariant. -/
theorem forest_applyOps {ops : List Op} {net net' : AssetNet} (hF : Forest net)
    (hsafe : SafeOps ops net) (h : applyOps ops net = .ok net') : Forest net' := by
  induction ops generalizing net with
  | nil =>
    have : net = net' := Except.ok.inj h
    exact this ▸ hF
  | cons op rest ih =>
    unfold applyOps at h
    cases hop : Asset.applyOp op net with
    | error e => rw [hop] at h; dsimp only at h; cases h
    | ok net2 =>
      rw [hop] at h
      dsimp only at h
      exact ih (forest_applyOp hF hsafe.1 hop) (hsafe.2 net2 hop) h

end Asset

namespace Asset

/-- C1 (amended): for every forest and every successful sequence of add,
modify and delete operations in which each add's generated id is fresh (as
`make_key` guarantees) and each modify's resolved new parent is neither the
target node itself nor one of its descendants, the result is still a
well-formed forest: every node has in-degree at most one in the parent
relation and no cycle exists.  (Without the re-parent restriction the
modify operation can introduce a cycle; see the counterexample.) -/
theorem claim_C1 (ops : List Op) (net net' : AssetNet) (hF : Forest net)
    (hsafe : SafeOps ops net) (h : applyOps ops net = .ok net') :
    Forest net' ∧ Acyclic net' ∧ ∀ n, (predecessors net' n).length ≤ 1 := by
  have hF2 := forest_applyOps hF hsafe h
  exact ⟨hF2, hF2.acyclic, predecessors_length_le_one hF2.2.1⟩

/-- C1 witness: one add on the empty network, with the invariant conclusions
evaluated. -/
theorem claim_C1_witness :
    Forest emptyNet ∧ SafeOps [Op.add { «alias» := ["a"] } "n1" "t0"] emptyNet ∧
      applyOps [Op.add { «alias» := ["a"] } "n1" "t0"] emptyNet = .ok addedNet ∧
      Forest addedNet ∧ Acyclic addedNet ∧
      ∀ n, (predecessors addedNet n).length ≤ 1 := by
  have hF : Forest emptyNet :=
    ⟨by decide, by decide, fun _ => 0, by intro e he; cases he⟩
  have hsafe : SafeOps [Op.add { «alias» := ["a"] } "n1" "t0"] emptyNet := by
    refine ⟨?_, ?_⟩
    · show "n1" ∉ keys emptyNet
      decide
    · intro net2 _
      trivial
  have happ : applyOps [Op.add { «alias» := ["a"] } "n1" "t0"] emptyNet
      = .ok addedNet := rfl
  obtain ⟨h1, h2, h3⟩ := claim_C1 _ _ _ hF hsafe happ
  exact ⟨hF, hsafe, happ, h1, h2, h3⟩

/-- C1 counterexample: starting from the two-node forest `a → b`, the single
successful modify `mod "a" --parent "b"` yields a network with a directed
cycle, refuting "no cycle is ever introduced" for unrestricted sequences. -/
theorem claim_C1_counterexample :
    Forest chainNet ∧
      applyOp (Op.mod { search := "a", parent := some "b" } "t") chainNet
        = .ok cycledNet ∧
      ¬ Acyclic cycledNet := by
  refine ⟨⟨by decide, by decide, fun x => if x = "b" then 1 else 0, ?_⟩, rfl, ?_⟩
  · intro e he
    rw [show chainNet.edges = [("a", "b")] from rfl, List.mem_singleton] at he
    subst he
    decide
  · intro hAc
    have e1 : EdgeRel cycledNet "a" "b" := by
      show ("a", "b") ∈ cycledNet.edges
      decide
    have e2 : EdgeRel cycledNet "b" "a" := by
      show ("b", "a") ∈ cycledNet.edges
      decide
    exact hAc "a" (Relation.TransGen.head e1 (Relation.TransGen.single e2))

end Asset

namespace Asset

/-! ## Duplicate-check behaviour (C3, C4) -/

/-- If some given alias triggers the sibling collision test, the duplicate
loop fails with the duplicate error. -/
theorem dup_check_error {net : AssetNet} {scope tags : List String}
    {aliases : List String}
    (h : ∃ a ∈ aliases, (scope.any (fun n => (metaOf net n).«alias».contains a &&
      tags.all (fun t => ((metaOf net n).tag.getD []).contains t))) = true) :
    dup_check net scope (some tags) aliases = .error .duplicate := by
  induction aliases with
  | nil => obtain ⟨a, ha, _⟩ := h; cases ha
  | cons b rest ih =>
    unfold dup_check
    dsimp only
    by_cases hb : (scope.any (fun n => (metaOf net n).«alias».contains b &&
        tags.all (fun t => ((metaOf net n).tag.getD []).contains t))) = true
    · rw [if_pos hb]
    · rw [if_neg hb]
      apply ih
      obtain ⟨a, ha, htrig⟩ := h
      rcases List.mem_cons.mp ha with rfl | ha2
      · exact absurd htrig hb
      · exact ⟨a, ha2, htrig⟩

/-- If no given alias triggers the sibling collision test, the duplicate
loop passes. -/
theorem dup_check_ok {net : AssetNet} {scope tags : List String}
    {aliases : List String}
    (h : ∀ a ∈ aliases, (scope.any (fun n => (metaOf net n).«alias».contains a &&
      tags.all (fun t => ((metaOf net n).tag.getD []).contains t))) = false) :
    dup_check net scope (some tags) aliases = .ok () := by
  induction aliases with
  | nil => rfl
  | cons b rest ih =>
    unfold dup_check
    dsimp only
    rw [h b (List.mem_cons_self _ _), if_neg (by simp)]
    exact ih (fun a ha => h a (List.mem_cons_of_mem _ ha))

/-- An add with a supplied (hence non-`None`) tag list whose alias/tag
combination collides in the resolved sibling scope fails with the
duplicate error and writes nothing — the behaviour claim C3 describes,
which the source only delivers when `--tag` is given. -/
theorem add_duplicate_with_tags (args : AddArgs) (name now path : String)
    (f : YamlFile) (tags : List String) (htag : args.tag = some tags)
    (scope : List String) (parentOpt : Option String)
    (hscope : add_scope args (yaml_to_nx path f) = .ok (scope, parentOpt))
    (hdup : ∃ a ∈ args.«alias», ∃ n ∈ scope,
      a ∈ (metaOf (yaml_to_nx path f) n).«alias» ∧
      ∀ t ∈ tags, t ∈ (metaOf (yaml_to_nx path f) n).tag.getD []) :
    add_to_nx args name now (yaml_to_nx path f) = .error .duplicate ∧
      asset_add_file args name now path f = none := by
  have hb : ∃ a ∈ args.«alias»,
      (scope.any (fun n => (metaOf (yaml_to_nx path f) n).«alias».contains a &&
        tags.all (fun t =>
          ((metaOf (yaml_to_nx path f) n).tag.getD []).contains t))) = true := by
    obtain ⟨a, ha, n, hn, hal, htags⟩ := hdup
    refine ⟨a, ha, ?_⟩
    rw [List.any_eq_true]
    refine ⟨n, hn, ?_⟩
    rw [Bool.and_eq_true]
    refine ⟨contains_iff.mpr hal, ?_⟩
    rw [List.all_eq_true]
    intro t ht
    exact contains_iff.mpr (htags t ht)
  have h1 : add_to_nx args name now (yaml_to_nx path f) = .error .duplicate := by
    unfold add_to_nx
    rw [hscope]
    dsimp only
    rw [htag, dup_check_error hb]
  refine ⟨h1, ?_⟩
  unfold asset_add_file
  rw [h1]

/-- C3 (code bug): the claim — and the source's own duplicate-error exit
two lines below the check — intend an alias/tag collision to fail with the
duplicate error for every given tag list, the absent one included; but
with `--tag` unset (`args.tag = None`) the collision test
`all(t in ... for t in args.tag)` iterates `None` and raises an uncaught
`TypeError` as soon as an existing sibling shares the alias, so the
no-tags case of the claim never reaches the duplicate exit.  Evaluated
here at the failing input (adding alias `a`, no tags, beside the root
aliased `a`), together with the same add carrying a supplied tag list,
which does fail with the duplicate error; in both cases nothing is
written to the collection file. -/
theorem claim_C3 :
    (add_to_nx { «alias» := ["a"] } "n2" "t" (yaml_to_nx "p" rootFile)
        = .error .typeError ∧
      asset_add_file { «alias» := ["a"] } "n2" "t" "p" rootFile = none) ∧
    (add_to_nx { «alias» := ["a"], tag := some ["x"] } "n2" "t"
        (yaml_to_nx "p" rootFile) = .error .duplicate ∧
      asset_add_file { «alias» := ["a"], tag := some ["x"] } "n2" "t" "p"
        rootFile = none) :=
  ⟨⟨rfl, rfl⟩, ⟨rfl, rfl⟩⟩

end Asset

namespace Asset

/-- If no scope member collides with the merged alias/tag values of the
target, the merge re-check succeeds. -/
theorem mod_merge_check_ok {args : ModArgs} {net2 : AssetNet} {node : String}
    {m : NodeMeta} (hmeta : metaOf net2 node = m) {scope : List String}
    (hnocoll : ∀ a ∈ (if args.«alias».isEmpty then m.«alias» else args.«alias»),
      ∀ n2 ∈ scope,
        ¬ (a ∈ (metaOf net2 n2).«alias» ∧
           ∀ t ∈ (if args.tag.isEmpty then m.tag.getD [] else args.tag),
             t ∈ (metaOf net2 n2).tag.getD [])) :
    ∃ meta2, mod_merge_check args net2 node scope = .ok meta2 := by
  have hok : dup_check net2 scope
      (some (if args.tag.isEmpty then (metaOf net2 node).tag.getD [] else args.tag))
      (if args.«alias».isEmpty then (metaOf net2 node).«alias» else args.«alias»)
      = .ok () := by
    apply dup_check_ok
    intro a ha
    rw [hmeta] at ha
    cases hany : List.any _ _ with
    | false => rfl
    | true =>
      obtain ⟨n2, hn2, htrig⟩ := List.any_eq_true.mp hany
      rw [Bool.and_eq_true] at htrig
      exfalso
      apply hnocoll a ha n2 hn2
      refine ⟨contains_iff.mp htrig.1, ?_⟩
      intro t ht
      rw [← hmeta] at ht
      exact contains_iff.mp (List.all_eq_true.mp htrig.2 t ht)
  unfold mod_merge_check
  by_cases hempty : (args.«alias».isEmpty && args.tag.isEmpty) = true
  · rw [if_pos hempty]
    exact ⟨_, rfl⟩
  · rw [if_neg hempty]
    dsimp only
    rw [hok]
    exact ⟨_, rfl⟩

/-- C4 (amended): whenever the uniquely resolved modify target has a parent
or a new parent is requested (and uniquely resolved), the
sibling-uniqueness re-check ranges only over that parent's *other*
children — the target itself is excluded — so if no other member of the
scope collides with the merged alias/tag values the modify succeeds, even
when it keeps one of the node's own aliases.  (For a root without a parent
change the re-check's scope is *all roots including the target itself*, so
such a modify can fail against the node's own entry; see the
counterexample.) -/
theorem claim_C4 (args : ModArgs) (now : String) (net : AssetNet)
    (hnd : (keys net).Nodup)
    (node : String) (m : NodeMeta) (rest : List (String × NodeMeta))
    (hsub : (search_nodes net args.search false false false).nodes = (node, m) :: rest)
    (hlen : ¬ (search_nodes net args.search false false false).nodes.length > 1)
    (p : String)
    (hbranch : (args.parent = none ∧ ∃ ps, predecessors net node = p :: ps) ∨
      (∃ psearch, args.parent = some psearch ∧
        resolve_node net psearch false = [p]))
    (hnocoll : ∀ a ∈ (if args.«alias».isEmpty then m.«alias» else args.«alias»),
      ∀ n2 ∈ (successors net p).filter (fun x => x != node),
        ¬ (a ∈ (metaOf net n2).«alias» ∧
           ∀ t ∈ (if args.tag.isEmpty then m.tag.getD [] else args.tag),
             t ∈ (metaOf net n2).tag.getD [])) :
    node ∉ (successors net p).filter (fun x => x != node) ∧
      ∃ net2, mod_nx_node args now net = .ok net2 := by
  have hmeta : metaOf net node = m := metaOf_eq_of_mem hnd (search_head_mem hsub)
  constructor
  · intro hmem
    have := List.of_mem_filter hmem
    simp at this
  · rcases hbranch with ⟨hparg, ps, hpred⟩ | ⟨psearch, hparg, hres⟩
    · -- the target already has a parent, no new parent requested
      have hrp : mod_reparent args net node
          = .ok (net, (successors net p).filter (fun x => x != node), some p) := by
        unfold mod_reparent
        rw [hparg]
        dsimp only
        rw [hpred]
      obtain ⟨meta2, hmc⟩ := mod_merge_check_ok hmeta hnocoll
      unfold mod_nx_node
      dsimp only
      rw [if_neg hlen, hsub]
      dsimp only
      rw [hrp]
      dsimp only
      rw [hmc]
      dsimp only
      exact ⟨_, rfl⟩
    · -- a new parent is requested: the scope is its children minus the target
      have hrp : mod_reparent args net node
          = .ok ({ net with
                edges := (net.edges.filter (fun e => e.2 != node)) ++ [(p, node)] },
              (successors net p).filter (fun x => x != node), some p) := by
        unfold mod_reparent
        rw [hparg]
        dsimp only
        rw [hres]
        dsimp only
        rw [if_neg (by simp)]
      have hmeta2 : metaOf { net with
          edges := (net.edges.filter (fun e => e.2 != node)) ++ [(p, node)] } node
          = m := hmeta
      have hnocoll2 : ∀ a ∈ (if args.«alias».isEmpty then m.«alias» else args.«alias»),
          ∀ n2 ∈ (successors net p).filter (fun x => x != node),
            ¬ (a ∈ (metaOf { net with
                  edges := (net.edges.filter (fun e => e.2 != node)) ++ [(p, node)] }
                n2).«alias» ∧
               ∀ t ∈ (if args.tag.isEmpty then m.tag.getD [] else args.tag),
                 t ∈ (metaOf { net with
                    edges := (net.edges.filter (fun e => e.2 != node)) ++ [(p, node)] }
                  n2).tag.getD []) := hnocoll
      obtain ⟨meta2, hmc⟩ := mod_merge_check_ok hmeta2 hnocoll2
      unfold mod_nx_node
      dsimp only
      rw [if_neg hlen, hsub]
      dsimp only
      rw [hrp]
      dsimp only
      rw [hmc]
      dsimp only
      exact ⟨_, rfl⟩

/-- C4 witness: modifying the only child `c` of `p` (replacing its tags,
keeping its alias) succeeds both with its existing parent and with an
explicit `--parent` naming `p`: in both branches the re-check scope
excludes `c` itself. -/
theorem claim_C4_witness :
    (("c" ∉ (successors parentNet "p").filter (fun x => x != "c")) ∧
      ∃ net2, mod_nx_node { search := "c", tag := ["t"] } "t1" parentNet
        = .ok net2) ∧
    (("c" ∉ (successors parentNet "p").filter (fun x => x != "c")) ∧
      ∃ net2, mod_nx_node { search := "c", tag := ["t"], parent := some "p" }
        "t1" parentNet = .ok net2) := by
  constructor
  · exact claim_C4 { search := "c", tag := ["t"] } "t1" parentNet (by decide)
      "c" { «alias» := ["c"] } [] rfl (by decide) "p"
      (Or.inl ⟨rfl, [], rfl⟩) (by decide)
  · exact claim_C4 { search := "c", tag := ["t"], parent := some "p" } "t1"
      parentNet (by decide) "c" { «alias» := ["c"] } [] rfl (by decide) "p"
      (Or.inr ⟨"p", rfl, rfl⟩) (by decide)

/-- C4 counterexample: the target is the *only* node of the forest — a root
aliased `a` with tags `x, y` — yet a tags-only modify narrowing the tags to
`x` fails with the duplicate error: the root-branch scope includes the node
itself. -/
theorem claim_C4_counterexample :
    rootNet.nodes.length = 1 ∧
      predecessors rootNet "r" = [] ∧
      mod_nx_node { search := "a", tag := ["x"] } "t" rootNet
        = .error .duplicate :=
  ⟨rfl, rfl, rfl⟩

end Asset

namespace Asset

/-! ## Modify at the command layer (C8, C10) -/

/-- A network compares equal to itself under the dictionary comparison. -/
theorem graphs_equal_refl (a : AssetNet) : graphs_equal a a = true := by
  unfold graphs_equal
  have h1 : ∀ (l : List (String × NodeMeta)), l.all (l.contains ·) = true := by
    intro l
    rw [List.all_eq_true]
    intro x hx
    exact contains_iff.mpr hx
  have h2 : ∀ (l : List (String × String)), l.all (l.contains ·) = true := by
    intro l
    rw [List.all_eq_true]
    intro x hx
    exact contains_iff.mpr hx
  rw [h1, h2]
  simp

/-- C8: a modify whose target search resolves to zero nodes or to more than
one node writes nothing to the collection file: zero matches leave the
scratch copy identical to the original (detected by the graph comparison,
so the caller falls through), and an ambiguous match terminates before any
mutation. -/
theorem claim_C8 (args : ModArgs) (now path : String) (f : YamlFile)
    (h : (search_nodes (yaml_to_nx path f) args.search false false false).nodes.length = 0 ∨
      (search_nodes (yaml_to_nx path f) args.search false false false).nodes.length > 1) :
    asset_mod_file args now path f = none := by
  rcases h with h0 | h1
  · have hnil : (search_nodes (yaml_to_nx path f) args.search false false false).nodes = [] :=
      List.length_eq_zero.mp h0
    have hmod : mod_nx_node args now (yaml_to_nx path f) = .ok (yaml_to_nx path f) := by
      unfold mod_nx_node
      dsimp only
      rw [hnil]
      dsimp only
      rw [if_neg (by simp)]
    unfold asset_mod_file
    dsimp only
    rw [hmod]
    dsimp only
    rw [if_pos (graphs_equal_refl _)]
  · have hmod : mod_nx_node args now (yaml_to_nx path f) = .error .ambiguous := by
      unfold mod_nx_node
      dsimp only
      rw [if_pos h1]
    unfold asset_mod_file
    dsimp only
    rw [hmod]

/-- C8 witness: a search matching nothing in the one-root file writes
nothing. -/
theorem claim_C8_witness : asset_mod_file { search := "zz" } "t9" "p" modFile = none :=
  claim_C8 { search := "zz" } "t9" "p" modFile (Or.inl rfl)

/-- C10 (amended): a modify with a uniquely resolved target and no
replacement field still stamps `update_time` with the current time
unconditionally; the scratch copy differs from the original — and the file
is rewritten — exactly when the stored `update_time` differs from the
current timestamp string.  (A no-change modify re-run within the same
second leaves the copy identical, so nothing is written and the caller
falls through to the next collection; see the counterexample.) -/
theorem claim_C10 (args : ModArgs) (now path : String) (f : YamlFile)
    (hargs : args.«alias» = [] ∧ args.tag = [] ∧ args.description = none ∧
      args.item = none ∧ args.parent = none)
    (node : String) (m : NodeMeta)
    (hnd : (keys (yaml_to_nx path f)).Nodup)
    (hsub : (search_nodes (yaml_to_nx path f) args.search false false false).nodes
      = [(node, m)]) :
    mod_nx_node args now (yaml_to_nx path f)
        = .ok (set_meta (yaml_to_nx path f) node { m with update_time := now }) ∧
      (m.update_time ≠ now →
        asset_mod_file args now path f
          = some (nx_to_yaml (set_meta (yaml_to_nx path f) node
              { m with update_time := now }))) := by
  obtain ⟨hal, htg, hdesc, hitem, hpar⟩ := hargs
  have hmeta : metaOf (yaml_to_nx path f) node = m :=
    metaOf_eq_of_mem hnd (search_head_mem hsub)
  have hlen : ¬ (search_nodes (yaml_to_nx path f) args.search false false false).nodes.length > 1 := by
    rw [hsub]
    simp
  have hmod : mod_nx_node args now (yaml_to_nx path f)
      = .ok (set_meta (yaml_to_nx path f) node { m with update_time := now }) := by
    unfold mod_nx_node
    dsimp only
    rw [if_neg hlen, hsub]
    dsimp only
    have hrp : ∃ scope parentOpt, mod_reparent args (yaml_to_nx path f) node
        = .ok (yaml_to_nx path f, scope, parentOpt) := by
      unfold mod_reparent
      rw [hpar]
      dsimp only
      cases hpred : predecessors (yaml_to_nx path f) node with
      | nil => exact ⟨_, _, rfl⟩
      | cons p ps => exact ⟨_, _, rfl⟩
    obtain ⟨scope, parentOpt, hrp⟩ := hrp
    rw [hrp]
    dsimp only
    have hmc : mod_merge_check args (yaml_to_nx path f) node scope = .ok m := by
      unfold mod_merge_check
      rw [if_pos (by rw [hal, htg]; rfl), hmeta]
    rw [hmc]
    dsimp only
    have hfin : mod_finish args now (yaml_to_nx path f) node parentOpt m
        = { m with update_time := now } := by
      unfold mod_finish
      rw [hdesc, hitem]
    rw [hfin]
  refine ⟨hmod, ?_⟩
  intro hne
  unfold asset_mod_file
  dsimp only
  rw [hmod]
  dsimp only
  rw [if_neg ?_]
  intro hge
  unfold graphs_equal at hge
  have hmem : (node, m) ∈ (yaml_to_nx path f).nodes := search_head_mem hsub
  have hnotmem : (node, m) ∉ (set_meta (yaml_to_nx path f) node
      { m with update_time := now }).nodes := by
    intro hc
    unfold set_meta at hc
    rw [List.mem_map] at hc
    obtain ⟨q, hq, heq⟩ := hc
    by_cases hq1 : (q.1 == node) = true
    · rw [if_pos hq1] at heq
      have := congrArg Prod.snd heq
      dsimp only at this
      have := congrArg NodeMeta.update_time this
      simp at this
      exact hne this.symm
    · rw [if_neg hq1] at heq
      rw [heq] at hq1
      simp at hq1
  rw [Bool.and_eq_true, Bool.and_eq_true, Bool.and_eq_true, Bool.and_eq_true,
    Bool.and_eq_true] at hge
  have hall := hge.1.1.1.1.1
  rw [List.all_eq_true] at hall
  exact hnotmem (contains_iff.mp (hall (node, m) hmem))

/-- C10 witness: re-modifying at a fresh timestamp rewrites the file with
the new `update_time`. -/
theorem claim_C10_witness :
    mod_nx_node { search := "a" } "t2" (yaml_to_nx "p" modFile)
        = .ok (set_meta (yaml_to_nx "p" modFile) "r"
          { create_time := "t0", update_time := "t2", «alias» := ["a"] }) ∧
      asset_mod_file { search := "a" } "t2" "p" modFile
        = some (nx_to_yaml (set_meta (yaml_to_nx "p" modFile) "r"
          { create_time := "t0", update_time := "t2", «alias» := ["a"] })) := by
  have h := claim_C10 { search := "a" } "t2" "p" modFile
    ⟨rfl, rfl, rfl, rfl, rfl⟩ "r"
    { create_time := "t0", update_time := "t1", «alias» := ["a"] }
    (by decide) rfl
  exact ⟨h.1, h.2 (by decide)⟩

/-- C10 counterexample: a field-less modify of the root whose stored
`update_time` already equals the current second leaves the copy identical,
so nothing is written and the caller falls through — the file is *not*
always rewritten. -/
theorem claim_C10_counterexample :
    (search_nodes (yaml_to_nx "p" modFile) "a" false false false).nodes.length = 1 ∧
      asset_mod_file { search := "a" } "t1" "p" modFile = none :=
  ⟨rfl, rfl⟩

end Asset

namespace Asset

/-! ## Substring matching and empty alias terms (C5, C9) -/

/-- The empty pattern begins everywhere. -/
theorem chars_begin_nil (s : List Char) : chars_begin [] s = true := by
  cases s <;> rfl

/-- The empty pattern occurs everywhere. -/
theorem chars_in_nil (s : List Char) : chars_in [] s = true := by
  cases s with
  | nil => rfl
  | cons c cs =>
    unfold chars_in
    rw [chars_begin_nil]
    rfl

/-- Every pattern begins itself. -/
theorem chars_begin_refl : ∀ p : List Char, chars_begin p p = true
  | [] => rfl
  | c :: cs => by simp [chars_begin, chars_begin_refl cs]

/-- A prefix occurrence survives extending the subject on the right. -/
theorem chars_begin_append_right {p s : List Char}
    (h : chars_begin p s = true) (r : List Char) :
    chars_begin p (s ++ r) = true := by
  induction p generalizing s with
  | nil => exact chars_begin_nil _
  | cons c cs ih =>
    cases s with
    | nil => cases h
    | cons d ds =>
      simp only [chars_begin, Bool.and_eq_true] at h
      show chars_begin (c :: cs) (d :: (ds ++ r)) = true
      simp only [chars_begin, Bool.and_eq_true]
      exact ⟨h.1, ih h.2⟩

/-- Beginning is transitive along nested prefixes. -/
theorem chars_begin_trans {p q s : List Char} (h1 : chars_begin p q = true)
    (h2 : chars_begin q s = true) : chars_begin p s = true := by
  induction p generalizing q s with
  | nil => exact chars_begin_nil _
  | cons c cs ih =>
    cases q with
    | nil => cases h1
    | cons d ds =>
      cases s with
      | nil => cases h2
      | cons e es =>
        simp only [chars_begin, Bool.and_eq_true] at h1 h2
        simp only [chars_begin, Bool.and_eq_true]
        refine ⟨?_, ih h1.2 h2.2⟩
        have hcd : c = d := by simpa using h1.1
        have hde : d = e := by simpa using h2.1
        simp [hcd, hde]

/-- A prefix occurrence is an occurrence. -/
theorem chars_in_of_begin {p s : List Char} (h : chars_begin p s = true) :
    chars_in p s = true := by
  cases s with
  | nil => exact h
  | cons c cs =>
    unfold chars_in
    rw [h]
    rfl

/-- An occurrence survives prepending one character. -/
theorem chars_in_cons {p s : List Char} (h : chars_in p s = true) (c : Char) :
    chars_in p (c :: s) = true := by
  unfold chars_in
  rw [h]
  simp

/-- An occurrence survives prepending any text. -/
theorem chars_in_append_left {p s : List Char} (h : chars_in p s = true)
    (l : List Char) : chars_in p (l ++ s) = true := by
  induction l with
  | nil => exact h
  | cons c cs ih => exact chars_in_cons ih c

/-- A prefix of an occurring pattern occurs itself. -/
theorem chars_in_of_begin_of_in {p q s : List Char}
    (hpq : chars_begin p q = true) (hq : chars_in q s = true) :
    chars_in p s = true := by
  induction s with
  | nil =>
    cases q with
    | nil =>
      cases p with
      | nil => rfl
      | cons c cs => cases hpq
    | cons d ds => cases hq
  | cons c cs ih =>
    unfold chars_in at hq ⊢
    rw [Bool.or_eq_true] at hq
    rcases hq with hq | hq
    · rw [chars_begin_trans hpq hq]
      rfl
    · rw [ih hq]
      simp

/-- C5 (amended): the empty alias term acts as a wildcard only under fuzzy
matching, where it accepts every node (and an empty fuzzy search returns
every id of the forest); under exact matching the empty term is an
ordinary list-membership test, accepting exactly the nodes whose alias
list contains the empty string. -/
theorem claim_C5 :
    (∀ meta : NodeMeta, fuzzy_seg "" [] meta = true) ∧
      (∀ meta : NodeMeta, exact_seg "" [] meta = meta.«alias».contains "") ∧
      (∀ net : AssetNet, resolve_node net "" true = keys net) ∧
      (∀ net : AssetNet, resolve_node net "" false
        = (net.nodes.filter (fun p => p.2.«alias».contains "")).map Prod.fst) := by
  have hfuzzy : ∀ meta : NodeMeta, fuzzy_seg "" [] meta = true := by
    intro meta
    unfold fuzzy_seg fuzzy_term_match
    rw [show to_lower "" = [] from rfl, chars_in_nil]
    rfl
  have hexact : ∀ meta : NodeMeta, exact_seg "" [] meta = meta.«alias».contains "" := by
    intro meta
    unfold exact_seg
    rw [show ([].all fun t => (meta.tag.getD []).contains t) = true from rfl,
      Bool.and_true]
  refine ⟨hfuzzy, hexact, ?_, ?_⟩
  · intro net
    show seg_filter net true "" [] = keys net
    unfold seg_filter
    rw [List.filter_eq_self.mpr (fun p _ => hfuzzy p.2)]
    rfl
  · intro net
    show seg_filter net false "" [] = _
    unfold seg_filter
    rw [List.filter_congr (fun p _ => hexact p.2)]

/-- C5 counterexample: a nonempty forest in which exact resolution of the
empty search term matches nothing — the empty alias term is not a wildcard
in exact mode — while fuzzy resolution of it returns everything. -/
theorem claim_C5_counterexample :
    bananaNet2.nodes.length = 1 ∧ resolve_node bananaNet2 "" false = [] ∧
      resolve_node bananaNet2 "" true = ["x"] :=
  ⟨rfl, rfl, rfl⟩

/-- Any listed alias makes the lowered joined alias text contain its
lowered characters contiguously. -/
theorem chars_in_join_of_mem {l : List String} {s : String} (h : s ∈ l) :
    chars_in (to_lower s) ((join_aliases l).map Char.toLower) = true := by
  induction l with
  | nil => cases h
  | cons q rest ih =>
    cases rest with
    | nil =>
      rw [List.mem_singleton] at h
      subst h
      show chars_in (to_lower s) (s.toList.map Char.toLower) = true
      rw [show to_lower s = s.toList.map Char.toLower from rfl]
      exact chars_in_of_begin (chars_begin_refl _)
    | cons r rs =>
      have hjoin : join_aliases (q :: r :: rs)
          = q.toList ++ '_' :: join_aliases (r :: rs) := rfl
      rw [hjoin, List.map_append]
      rcases List.mem_cons.mp h with rfl | h2
      · rw [show to_lower s = s.toList.map Char.toLower from rfl]
        exact chars_in_of_begin
          (chars_begin_append_right (chars_begin_refl _) _)
      · have hin := ih h2
        rw [show ('_' :: join_aliases (r :: rs)).map Char.toLower
            = '_'.toLower :: (join_aliases (r :: rs)).map Char.toLower from rfl]
        exact chars_in_append_left (chars_in_cons hin _) _

/-- With distinct ids, two entries sharing an id share their metadata. -/
theorem meta_unique {net : AssetNet} (hnd : (keys net).Nodup) {n : String}
    {m1 m2 : NodeMeta} (h1 : (n, m1) ∈ net.nodes) (h2 : (n, m2) ∈ net.nodes) :
    m1 = m2 := by
  have := List.inj_on_of_nodup_map (by simpa [keys] using hnd) h1 h2 (by rfl)
  exact congrArg Prod.snd this

/-- C9 (amended): a node aliased `banana` is always found by fuzzy
resolution of `ban` (case-insensitive substring matching), while exact
resolution of `ban` finds it precisely when `ban` itself is one of the
node's aliases — so a node aliased only `banana` is missed by the exact
mode. -/
theorem claim_C9 (net : AssetNet) (hnd : (keys net).Nodup)
    (node : String) (m : NodeMeta) (hmem : (node, m) ∈ net.nodes)
    (hban : "banana" ∈ m.«alias») :
    node ∈ resolve_node net "ban" true ∧
      (node ∈ resolve_node net "ban" false ↔ "ban" ∈ m.«alias») := by
  constructor
  · show node ∈ seg_filter net true "ban" []
    unfold seg_filter
    rw [List.mem_map]
    refine ⟨(node, m), ?_, rfl⟩
    rw [List.mem_filter]
    refine ⟨hmem, ?_⟩
    show fuzzy_seg "ban" [] m = true
    unfold fuzzy_seg fuzzy_term_match
    rw [chars_in_of_begin_of_in (q := to_lower "banana") (by decide)
      (chars_in_join_of_mem hban)]
    rfl
  · show node ∈ seg_filter net false "ban" [] ↔ _
    unfold seg_filter
    rw [List.mem_map]
    constructor
    · rintro ⟨p, hp, hp1⟩
      rw [List.mem_filter] at hp
      obtain ⟨hpmem, hpseg⟩ := hp
      have hpm : p = (node, p.2) := by
        rw [← hp1, Prod.mk.eta]
      rw [hpm] at hpmem
      have hsnd : p.2 = m := meta_unique hnd hpmem hmem
      rw [if_neg (by simp)] at hpseg
      rw [hsnd] at hpseg
      unfold exact_seg at hpseg
      rw [Bool.and_eq_true] at hpseg
      exact contains_iff.mp hpseg.1
    · intro hbn
      refine ⟨(node, m), ?_, rfl⟩
      rw [List.mem_filter]
      refine ⟨hmem, ?_⟩
      show exact_seg "ban" [] m = true
      unfold exact_seg
      rw [Bool.and_eq_true]
      exact ⟨contains_iff.mpr hbn, rfl⟩

/-- C9 witness: the single node aliased only `banana` is found by fuzzy
`ban` and missed by exact `ban`. -/
theorem claim_C9_witness :
    ("x", ({ «alias» := ["banana"] } : NodeMeta)) ∈ bananaNet2.nodes ∧
      "x" ∈ resolve_node bananaNet2 "ban" true ∧
      ("x" ∈ resolve_node bananaNet2 "ban" false
        ↔ "ban" ∈ ({ «alias» := ["banana"] } : NodeMeta).«alias») := by
  have h := claim_C9 bananaNet2 (by decide) "x" { «alias» := ["banana"] }
    (by decide) (by decide)
  exact ⟨by decide, h.1, h.2⟩

/-- C9 counterexample: a node aliased both `banana` and `ban` *is* included
by exact resolution of `ban`, refuting the unconditional exclusion. -/
theorem claim_C9_counterexample :
    "banana" ∈ (metaOf bananaNet "x").«alias» ∧
      resolve_node bananaNet "ban" false = ["x"] :=
  ⟨by decide, rfl⟩

end Asset

namespace Asset

/-! ## Two-segment path resolution (C6) -/

/-- C6 (amended): in a well-formed forest where `a` has child `b`, the
alias `a` names only the node `a` and the alias `b` names only the node
`b`, exact resolution of `"a/b"` returns exactly `[b]`; and whenever no
node reachable from `a` is aliased `z`, exact resolution of `"a/z"`
returns the empty list — an empty match at a segment yields an empty
result, never an error, because each non-final segment restricts the
candidates to the descendants of its matches.  (Without the uniqueness
hypotheses the first statement fails: a second descendant aliased `b`
also appears in the result; see the counterexample.) -/
theorem claim_C6 (net : AssetNet) (hwf : WFNet net)
    (a b : String) (ma mb : NodeMeta)
    (hma : (a, ma) ∈ net.nodes) (hmb : (b, mb) ∈ net.nodes)
    (hedge : (a, b) ∈ net.edges) (hab : a ≠ b)
    (haa : "a" ∈ ma.«alias») (hbb : "b" ∈ mb.«alias»)
    (hua : ∀ p ∈ net.nodes, "a" ∈ p.2.«alias» → p.1 = a)
    (hub : ∀ p ∈ net.nodes, "b" ∈ p.2.«alias» → p.1 = b) :
    resolve_node net "a/b" false = [b] ∧
      ((∀ x, Reaches net a x → ∀ p ∈ net.nodes, p.1 = x → "z" ∉ p.2.«alias») →
        resolve_node net "a/z" false = []) := by
  have hakey : a ∈ keys net := List.mem_map_of_mem Prod.fst hma
  have hnd : (net.nodes.map Prod.fst).Nodup := by simpa [keys] using hwf.1
  have h1 : seg_filter net false "a" [] = [a] := by
    unfold seg_filter
    have hfil : net.nodes.filter (fun p =>
        if false = true then fuzzy_seg "a" [] p.2 else exact_seg "a" [] p.2)
        = [(a, ma)] := by
      apply filter_eq_singleton_of_unique net.nodes _ a ma hnd hma
      · show exact_seg "a" [] ma = true
        unfold exact_seg
        rw [Bool.and_eq_true]
        exact ⟨contains_iff.mpr haa, rfl⟩
      · intro q hq hpq
        rw [if_neg (by simp)] at hpq
        unfold exact_seg at hpq
        rw [Bool.and_eq_true] at hpq
        exact hua q hq (contains_iff.mp hpq.1)
    rw [hfil]
    rfl
  have step2 : [a].flatMap (fun n => descendants net n) = descendants net a := by
    simp
  have hsubnd : ((net.subgraph (descendants net a)).nodes.map Prod.fst).Nodup :=
    hnd.sublist ((List.filter_sublist _).map Prod.fst)
  constructor
  · have step1 : resolve_node net "a/b" false
        = seg_filter (net.subgraph ((seg_filter net false "a" []).flatMap
            (fun n => descendants net n))) false "b" [] := rfl
    rw [step1, h1, step2]
    unfold seg_filter
    have hbdesc : b ∈ descendants net a :=
      child_mem_descendants hwf hakey hedge (Ne.symm hab)
    have hbmem : (b, mb) ∈ (net.subgraph (descendants net a)).nodes := by
      show (b, mb) ∈ net.nodes.filter _
      rw [List.mem_filter]
      exact ⟨hmb, contains_iff.mpr hbdesc⟩
    have hfil : (net.subgraph (descendants net a)).nodes.filter (fun p =>
        if false = true then fuzzy_seg "b" [] p.2 else exact_seg "b" [] p.2)
        = [(b, mb)] := by
      apply filter_eq_singleton_of_unique _ _ b mb hsubnd hbmem
      · show exact_seg "b" [] mb = true
        unfold exact_seg
        rw [Bool.and_eq_true]
        exact ⟨contains_iff.mpr hbb, rfl⟩
      · intro q hq hpq
        rw [if_neg (by simp)] at hpq
        unfold exact_seg at hpq
        rw [Bool.and_eq_true] at hpq
        exact hub q (mem_nodes_subgraph hq).1 (contains_iff.mp hpq.1)
    rw [hfil]
    rfl
  · intro hz
    have step1z : resolve_node net "a/z" false
        = seg_filter (net.subgraph ((seg_filter net false "a" []).flatMap
            (fun n => descendants net n))) false "z" [] := rfl
    rw [step1z, h1, step2]
    unfold seg_filter
    have hfil : (net.subgraph (descendants net a)).nodes.filter (fun p =>
        if false = true then fuzzy_seg "z" [] p.2 else exact_seg "z" [] p.2)
        = [] := by
      rw [List.filter_eq_nil_iff]
      intro q hq hpq
      rw [if_neg (by simp)] at hpq
      unfold exact_seg at hpq
      rw [Bool.and_eq_true] at hpq
      obtain ⟨hqnodes, hqdesc⟩ := mem_nodes_subgraph hq
      have hreach : Reaches net a q.1 := (mem_descendants_sound hqdesc).1
      exact hz q.1 hreach q hqnodes rfl (contains_iff.mp hpq.1)
    rw [hfil]
    rfl

/-- C6 witness: in the two-node forest `a → b` with unique aliases, `"a/b"`
resolves to exactly `b` and `"a/z"` to nothing. -/
theorem claim_C6_witness :
    resolve_node chainNet "a/b" false = ["b"] ∧
      resolve_node chainNet "a/z" false = [] := by
  have h := claim_C6 chainNet (by decide) "a" "b"
    { «alias» := ["a"] } { «alias» := ["b"] }
    (by decide) (by decide) (by decide) (by decide) (by decide) (by decide)
    (by intro p hp hpa; fin_cases hp <;> simp_all)
    (by intro p hp hpb; fin_cases hp <;> simp_all)
  refine ⟨h.1, h.2 ?_⟩
  intro x hr p hp hpx
  fin_cases hp <;> decide

/-- C6 counterexample: in the chain `a → b1 → b2` where both `b1` and `b2`
are aliased `b` (sibling uniqueness intact — they are not siblings), node
`a` has child `b1` aliased `b`, yet exact resolution of `"a/b"` returns
both descendants, not exactly the child. -/
theorem claim_C6_counterexample :
    ("a", "b1") ∈ bbNet.edges ∧ "a" ∈ (metaOf bbNet "a").«alias» ∧
      "b" ∈ (metaOf bbNet "b1").«alias» ∧
      resolve_node bbNet "a/b" false = ["b1", "b2"] :=
  ⟨by decide, by decide, by decide, rfl⟩

end Asset

namespace Asset

/-! ## Delete: children guard, recursive closure, exact count (C7) -/

/-- Ids after removing one node. -/
theorem keys_remove_node (net : AssetNet) (n : String) :
    keys (remove_node net n) = (keys net).filter (fun x => x != n) := by
  unfold keys remove_node
  rw [List.filter_map]
  rfl

/-- Membership in the ids after removing one node. -/
theorem mem_keys_remove_node {net : AssetNet} {n x : String} :
    x ∈ keys (remove_node net n) ↔ x ∈ keys net ∧ x ≠ n := by
  rw [keys_remove_node, List.mem_filter]
  constructor
  · rintro ⟨h1, h2⟩
    exact ⟨h1, by simpa using h2⟩
  · rintro ⟨h1, h2⟩
    exact ⟨h1, by simpa using h2⟩

/-- Removing a present element from a duplicate-free list shortens it by
exactly one. -/
theorem filter_ne_length {l : List String} (hnd : l.Nodup) {n : String}
    (hm : n ∈ l) : (l.filter (fun x => x != n)).length + 1 = l.length := by
  induction l with
  | nil => cases hm
  | cons x t ih =>
    obtain ⟨hx_notin, hnt⟩ := List.nodup_cons.mp hnd
    rcases List.mem_cons.mp hm with rfl | hmt
    · rw [List.filter_cons_of_neg (by simp)]
      have ht : t.filter (fun x => x != n) = t := by
        rw [List.filter_eq_self]
        intro y hy
        simp only [bne_iff_ne, ne_eq, decide_eq_true_eq]
        intro hc
        exact hx_notin (hc ▸ hy)
      rw [ht]
      simp
    · have hxn : x ≠ n := by
        intro hc
        exact hx_notin (hc ▸ hmt)
      rw [List.filter_cons_of_pos (by simpa using hxn)]
      have := ih hnt hmt
      simp only [List.length_cons]
      omega

/-- Node count after removing one present node. -/
theorem remove_node_length {net : AssetNet} (hnd : (keys net).Nodup)
    {n : String} (hm : n ∈ keys net) :
    (remove_node net n).nodes.length + 1 = net.nodes.length := by
  have h1 : (remove_node net n).nodes.length = (keys (remove_node net n)).length := by
    unfold keys
    rw [List.length_map]
  have h2 : net.nodes.length = (keys net).length := by
    unfold keys
    rw [List.length_map]
  rw [h1, h2, keys_remove_node]
  exact filter_ne_length hnd hm

/-- Removing nodes keeps the id list duplicate-free. -/
theorem nodup_keys_remove_node {net : AssetNet} (hnd : (keys net).Nodup)
    (n : String) : (keys (remove_node net n)).Nodup := by
  rw [keys_remove_node]
  exact hnd.filter _

/-- Ids of a batch removal are ids of the original. -/
theorem keys_fold_subset (l : List String) (net : AssetNet) :
    keys (remove_nodes_from net l) ⊆ keys net := by
  induction l generalizing net with
  | nil => exact fun _ h => h
  | cons x t ih =>
    intro y hy
    have : y ∈ keys (remove_node net x) :=
      ih (remove_node net x) hy
    exact (mem_keys_remove_node.mp this).1

/-- Batch removal keeps the id list duplicate-free. -/
theorem nodup_keys_fold {l : List String} {net : AssetNet}
    (hnd : (keys net).Nodup) : (keys (remove_nodes_from net l)).Nodup := by
  induction l generalizing net with
  | nil => exact hnd
  | cons x t ih => exact ih (nodup_keys_remove_node hnd x)

/-- A removed id is gone after the whole batch. -/
theorem not_mem_keys_fold {l : List String} {net : AssetNet} {x : String}
    (hx : x ∈ l) : x ∉ keys (remove_nodes_from net l) := by
  induction l generalizing net with
  | nil => cases hx
  | cons y t ih =>
    rcases List.mem_cons.mp hx with rfl | hxt
    · intro hc
      have := keys_fold_subset t (remove_node net x) hc
      exact (mem_keys_remove_node.mp this).2 rfl
    · exact ih hxt

/-- An id outside the batch survives it. -/
theorem mem_keys_fold_of {l : List String} {net : AssetNet} {x : String}
    (hx : x ∈ keys net) (hnl : x ∉ l) :
    x ∈ keys (remove_nodes_from net l) := by
  induction l generalizing net with
  | nil => exact hx
  | cons y t ih =>
    have hxy : x ≠ y := fun hc => hnl (hc ▸ List.mem_cons_self _ _)
    exact ih (mem_keys_remove_node.mpr ⟨hx, hxy⟩)
      (fun hc => hnl (List.mem_cons_of_mem _ hc))

/-- Node count after removing a duplicate-free batch of present ids. -/
theorem fold_remove_length {l : List String} {net : AssetNet}
    (hnd : (keys net).Nodup) (hl : l.Nodup) (hsub : ∀ x ∈ l, x ∈ keys net) :
    (remove_nodes_from net l).nodes.length + l.length = net.nodes.length := by
  induction l generalizing net with
  | nil => rfl
  | cons x t ih =>
    obtain ⟨hx_notin, hnt⟩ := List.nodup_cons.mp hl
    have hxk : x ∈ keys net := hsub x (List.mem_cons_self _ _)
    have hstep := remove_node_length hnd hxk
    have hrec := ih (nodup_keys_remove_node hnd x) hnt (by
      intro y hy
      have hyx : y ≠ x := fun hc => hx_notin (hc ▸ hy)
      exact mem_keys_remove_node.mpr ⟨hsub y (List.mem_cons_of_mem _ hy), hyx⟩)
    show (remove_nodes_from (remove_node net x) t).nodes.length + (t.length + 1)
      = net.nodes.length
    omega

/-- Without successors there are no descendants. -/
theorem descendants_nil_of_no_successors {net : AssetNet} {n : String}
    (h : successors net n = []) : descendants net n = [] := by
  rw [List.eq_nil_iff_forall_not_mem]
  intro x hx
  have hr := (mem_descendants_sound hx).1
  obtain ⟨b, hb, -⟩ := Relation.TransGen.head'_iff.mp hr
  have : b ∈ successors net n := mem_successors.mpr hb
  rw [h] at this
  cases this

/-- C7: with a uniquely resolved delete target, children without the
recursive flag give the has-children error; with the recursive flag the
target and every node reachable from it are removed and the node count
shrinks by exactly one plus the number of descendants; a delete resolving
to nothing is a silent no-op. -/
theorem claim_C7 (args : DelArgs) (net : AssetNet) (hF : Forest net) :
    ((search_nodes net args.search false false false).nodes = [] →
      del_from_nx args net = .ok net) ∧
    (∀ node m rest,
      (search_nodes net args.search false false false).nodes = (node, m) :: rest →
      ¬ (search_nodes net args.search false false false).nodes.length > 1 →
      ((successors net node ≠ [] → args.recursive = false →
        del_from_nx args net = .error .hasChildren) ∧
      (args.recursive = true →
        ∃ net2, del_from_nx args net = .ok net2 ∧
          net2.nodes.length + 1 + (descendants net node).length
            = net.nodes.length ∧
          (∀ x, Reaches net node x → x ∉ keys net2) ∧
          node ∉ keys net2))) := by
  obtain ⟨⟨hnd, hends⟩, hdeg, f, hf⟩ := hF
  constructor
  · intro hnil
    unfold del_from_nx
    dsimp only
    rw [hnil]
    dsimp only
    rw [if_neg (by simp)]
  · intro node m rest hsub hlen
    have hnode : node ∈ keys net :=
      List.mem_map_of_mem Prod.fst (search_head_mem hsub)
    constructor
    · intro hchild hrec
      unfold del_from_nx
      dsimp only
      rw [if_neg hlen, hsub]
      dsimp only
      have hne0 : (successors net node).length ≠ 0 :=
        fun hc => hchild (List.length_eq_zero.mp hc)
      rw [if_pos (by simpa using hne0), hrec]
      rfl
    · intro hrec
      unfold del_from_nx
      dsimp only
      rw [if_neg hlen, hsub]
      dsimp only
      cases hsucc : successors net node with
      | nil =>
        rw [if_neg (by simp [hsucc])]
        refine ⟨remove_node net node, rfl, ?_, ?_, ?_⟩
        · rw [descendants_nil_of_no_successors hsucc]
          simpa using remove_node_length hnd hnode
        · intro x hx
          obtain ⟨b, hb, -⟩ := Relation.TransGen.head'_iff.mp hx
          have : b ∈ successors net node := mem_successors.mpr hb
          rw [hsucc] at this
          cases this
        · intro hc
          exact (mem_keys_remove_node.mp hc).2 rfl
      | cons c cs =>
        rw [if_pos (by simp [hsucc]), hrec]
        rw [if_neg (by simp)]
        refine ⟨_, rfl, ?_, ?_, ?_⟩
        · have hdnd := descendants_nodup net node
          have hdsub : ∀ x ∈ descendants net node, x ∈ keys net :=
            descendants_subset_keys ⟨hnd, hends⟩ hnode
          have hfold := fold_remove_length hnd hdnd hdsub
          have hnodefold : node ∈ keys (remove_nodes_from net (descendants net node)) :=
            mem_keys_fold_of hnode (not_mem_descendants_self net node)
          have hfinal := remove_node_length (nodup_keys_fold hnd) hnodefold
          omega
        · intro x hx
          by_cases hxn : x = node
          · subst hxn
            intro hc
            exact (mem_keys_remove_node.mp hc).2 rfl
          · have hxd : x ∈ descendants net node :=
              mem_descendants_complete ⟨hnd, hends⟩ hnode hx hxn
            intro hc
            have := (mem_keys_remove_node.mp hc).1
            exact not_mem_keys_fold hxd this
        · intro hc
          exact (mem_keys_remove_node.mp hc).2 rfl

/-- C7 witness: on the chain `a → b → c`, deleting `a` without the
recursive flag fails with the has-children error; with it, all three nodes
vanish (1 + 2 descendants); a search matching nothing is a no-op. -/
theorem claim_C7_witness :
    del_from_nx { search := "a" } delNet = .error .hasChildren ∧
      (∃ net2, del_from_nx { search := "a", recursive := true } delNet = .ok net2 ∧
        net2.nodes.length + 1 + (descendants delNet "a").length
          = delNet.nodes.length ∧
        (∀ x, Reaches delNet "a" x → x ∉ keys net2) ∧ "a" ∉ keys net2) ∧
      del_from_nx { search := "zz" } delNet = .ok delNet := by
  have hF : Forest delNet :=
    ⟨by decide, by decide,
      fun x => if x = "c" then 2 else if x = "b" then 1 else 0, by
        unfold DepthBound
        decide⟩
  have h1 := (claim_C7 { search := "a" } delNet hF).2 "a"
    { «alias» := ["a"] } [] rfl (by decide)
  have h2 := (claim_C7 { search := "a", recursive := true } delNet hF).2 "a"
    { «alias» := ["a"] } [] rfl (by decide)
  have h3 := (claim_C7 { search := "zz" } delNet hF).1 rfl
  exact ⟨h1.1 (by decide) rfl, h2.2 rfl, h3⟩

end Asset
